import Mathlib

/-!
Verification of the JSON response handling core (`src/jsonUtils.ts`,
class `JsonResponseHandler`) of the producthunt-mcp-server repository.

The development shallowly embeds the TypeScript source into Lean:

* JS values reaching the handler are JSON data; they are modelled by the
  mutual inductive `Json`/`JsonList`/`JsonFields` (objects keep insertion
  order, as JS objects do for string keys).  Numbers are modelled as
  integers: every number the upstream API produces is an integer count or
  id, and all arithmetic the handler performs on numbers is exact in IEEE
  doubles on that range.
* Fallible JS code (statements that can throw `TypeError`, I/O that can
  fail) is embedded in `Except String`.  File-system effects are supplied
  by an oracle argument summarising the outcome of the `fs` calls.
* Functions keep the names of the source functions they embed.
-/

mutual
/-- JSON value: the data reaching `JsonResponseHandler`.  Mutual with
`JsonList` (array elements) and `JsonFields` (object entries in insertion
order) so that all traversals are structural recursions. -/
inductive Json where
  | null : Json
  | bool (b : Bool) : Json
  | num (n : Int) : Json
  | str (s : String) : Json
  | arr (elems : JsonList) : Json
  | obj (fields : JsonFields) : Json

inductive JsonList where
  | nil : JsonList
  | cons (hd : Json) (tl : JsonList) : JsonList

inductive JsonFields where
  | nil : JsonFields
  | cons (key : String) (val : Json) (tl : JsonFields) : JsonFields
end

mutual
def Json.deq : (a b : Json) → Decidable (a = b)
  | .null, .null => isTrue rfl
  | .bool a, .bool b =>
    match Bool.decEq a b with
    | isTrue h => isTrue (by rw [h])
    | isFalse h => isFalse (by intro hc; cases hc; exact h rfl)
  | .num a, .num b =>
    match Int.decEq a b with
    | isTrue h => isTrue (by rw [h])
    | isFalse h => isFalse (by intro hc; cases hc; exact h rfl)
  | .str a, .str b =>
    match String.decEq a b with
    | isTrue h => isTrue (by rw [h])
    | isFalse h => isFalse (by intro hc; cases hc; exact h rfl)
  | .arr a, .arr b =>
    match JsonList.deq a b with
    | isTrue h => isTrue (by rw [h])
    | isFalse h => isFalse (by intro hc; cases hc; exact h rfl)
  | .obj a, .obj b =>
    match JsonFields.deq a b with
    | isTrue h => isTrue (by rw [h])
    | isFalse h => isFalse (by intro hc; cases hc; exact h rfl)
  | .null, .bool _ => isFalse (by intro h; cases h)
  | .null, .num _ => isFalse (by intro h; cases h)
  | .null, .str _ => isFalse (by intro h; cases h)
  | .null, .arr _ => isFalse (by intro h; cases h)
  | .null, .obj _ => isFalse (by intro h; cases h)
  | .bool _, .null => isFalse (by intro h; cases h)
  | .bool _, .num _ => isFalse (by intro h; cases h)
  | .bool _, .str _ => isFalse (by intro h; cases h)
  | .bool _, .arr _ => isFalse (by intro h; cases h)
  | .bool _, .obj _ => isFalse (by intro h; cases h)
  | .num _, .null => isFalse (by intro h; cases h)
  | .num _, .bool _ => isFalse (by intro h; cases h)
  | .num _, .str _ => isFalse (by intro h; cases h)
  | .num _, .arr _ => isFalse (by intro h; cases h)
  | .num _, .obj _ => isFalse (by intro h; cases h)
  | .str _, .null => isFalse (by intro h; cases h)
  | .str _, .bool _ => isFalse (by intro h; cases h)
  | .str _, .num _ => isFalse (by intro h; cases h)
  | .str _, .arr _ => isFalse (by intro h; cases h)
  | .str _, .obj _ => isFalse (by intro h; cases h)
  | .arr _, .null => isFalse (by intro h; cases h)
  | .arr _, .bool _ => isFalse (by intro h; cases h)
  | .arr _, .num _ => isFalse (by intro h; cases h)
  | .arr _, .str _ => isFalse (by intro h; cases h)
  | .arr _, .obj _ => isFalse (by intro h; cases h)
  | .obj _, .null => isFalse (by intro h; cases h)
  | .obj _, .bool _ => isFalse (by intro h; cases h)
  | .obj _, .num _ => isFalse (by intro h; cases h)
  | .obj _, .str _ => isFalse (by intro h; cases h)
  | .obj _, .arr _ => isFalse (by intro h; cases h)

def JsonList.deq : (a b : JsonList) → Decidable (a = b)
  | .nil, .nil => isTrue rfl
  | .cons a as, .cons b bs =>
    match Json.deq a b, JsonList.deq as bs with
    | isTrue h1, isTrue h2 => isTrue (by rw [h1, h2])
    | isFalse h1, _ => isFalse (by intro hc; cases hc; exact h1 rfl)
    | _, isFalse h2 => isFalse (by intro hc; cases hc; exact h2 rfl)
  | .nil, .cons _ _ => isFalse (by intro h; cases h)
  | .cons _ _, .nil => isFalse (by intro h; cases h)

def JsonFields.deq : (a b : JsonFields) → Decidable (a = b)
  | .nil, .nil => isTrue rfl
  | .cons k v t, .cons k' v' t' =>
    match String.decEq k k', Json.deq v v', JsonFields.deq t t' with
    | isTrue h1, isTrue h2, isTrue h3 => isTrue (by rw [h1, h2, h3])
    | isFalse h1, _, _ => isFalse (by intro hc; cases hc; exact h1 rfl)
    | _, isFalse h2, _ => isFalse (by intro hc; cases hc; exact h2 rfl)
    | _, _, isFalse h3 => isFalse (by intro hc; cases hc; exact h3 rfl)
  | .nil, .cons _ _ _ => isFalse (by intro h; cases h)
  | .cons _ _ _, .nil => isFalse (by intro h; cases h)
end

instance : DecidableEq Json := Json.deq

instance : DecidableEq JsonList := JsonList.deq

instance : DecidableEq JsonFields := JsonFields.deq

instance (ε α : Type) [DecidableEq ε] [DecidableEq α] : DecidableEq (Except ε α) :=
  fun a b =>
    match a, b with
    | .ok x, .ok y =>
      match decEq x y with
      | isTrue h => isTrue (by rw [h])
      | isFalse h => isFalse (by intro hc; cases hc; exact h rfl)
    | .error x, .error y =>
      match decEq x y with
      | isTrue h => isTrue (by rw [h])
      | isFalse h => isFalse (by intro hc; cases hc; exact h rfl)
    | .ok _, .error _ => isFalse (by intro h; cases h)
    | .error _, .ok _ => isFalse (by intro h; cases h)

/-- `array.length` -/
def JsonList.length : JsonList → Nat
  | .nil => 0
  | .cons _ tl => tl.length + 1

/-- `array.slice(0, n)`: the first `n` elements. -/
def JsonList.take : JsonList → Nat → JsonList
  | .nil, _ => .nil
  | .cons _ _, 0 => .nil
  | .cons hd tl, n + 1 => .cons hd (tl.take n)

def JsonList.append : JsonList → JsonList → JsonList
  | .nil, ys => ys
  | .cons x xs, ys => .cons x (xs.append ys)

/-- `n` copies of `v` (used to build concrete test arrays). -/
def JsonList.replicate : Nat → Json → JsonList
  | 0, _ => .nil
  | n + 1, v => .cons v (JsonList.replicate n v)

def JsonFields.keys : JsonFields → List String
  | .nil => []
  | .cons k _ tl => k :: tl.keys

/-- JS property read `obj[k]` on a plain object: the value of the (unique
in real JS; first, here) entry named `k`, or `none` for JS `undefined`
when no such key exists. -/
def JsonFields.lookup : JsonFields → String → Option Json
  | .nil, _ => none
  | .cons k v tl, key => if k = key then some v else tl.lookup key

/-- JS truthiness of a JSON value (`!data` is true exactly on the falsy
ones): `null`, `false`, `0` and `""` are falsy; every object and array is
truthy. -/
def jsFalsy : Json → Bool
  | .null => true
  | .bool b => !b
  | .num n => n == 0
  | .str s => s == ""
  | .arr _ => false
  | .obj _ => false

/-- JS `typeof`: note `typeof null` is `"object"`, and arrays are
`"object"` as well. -/
def jsTypeof : Json → String
  | .null => "object"
  | .bool _ => "boolean"
  | .num _ => "number"
  | .str _ => "string"
  | .arr _ => "object"
  | .obj _ => "object"

/-- Result of `findLargeArrayField` (src/jsonUtils.ts lines 24-29). -/
structure LargeArrayFieldResult where
  fieldPath : String
  array : JsonList
  parentObj : Option Json
  fieldKey : String
deriving DecidableEq

/-- Result of `limitItems` (src/jsonUtils.ts lines 34-39). -/
structure LimitItemsResult where
  limited : Json
  originalCount : Nat
  wasLimited : Bool
  limitedField : Option String
deriving DecidableEq

/-- Result of `saveRawData` (src/jsonUtils.ts lines 44-47). -/
structure SaveRawDataResult where
  filePath : String
  fileSize : Nat
deriving DecidableEq

mutual
/-- Embedding of `findLargeArrayField` (src/jsonUtils.ts lines 110-139).
`maxItems` is `this.config.maxItemsForContext`.  Line 111 returns `null`
for every falsy or non-object input, hence for everything except arrays
and objects. -/
def findLargeArrayField (maxItems : Nat) (data : Json) (pathStr : String) :
    Option LargeArrayFieldResult :=
  match data with
  | .arr elems =>
    -- lines 114-119: the data itself is an array
    if elems.length > maxItems then
      some { fieldPath := if pathStr = "" then "(root)" else pathStr,
             array := elems, parentObj := none, fieldKey := "" }
    else none
  | .obj fields => findInFields maxItems (.obj fields) fields pathStr
  | _ => none

/-- The `for (const key of Object.keys(data))` loop of
`findLargeArrayField` (lines 122-136); `parent` is the object being
scanned (`data` in the source). -/
def findInFields (maxItems : Nat) (parent : Json) (fields : JsonFields)
    (pathStr : String) : Option LargeArrayFieldResult :=
  match fields with
  | .nil => none
  | .cons key value rest =>
    -- line 124: `pathStr ? `${pathStr}.${key}` : key` (empty string is falsy)
    let currentPath := if pathStr = "" then key else pathStr ++ "." ++ key
    match value with
    | .arr elems =>
      -- lines 127-129: an immediate oversized array field
      if elems.length > maxItems then
        some { fieldPath := currentPath, array := elems,
               parentObj := some parent, fieldKey := key }
      else findInFields maxItems parent rest pathStr
    | .obj _ =>
      -- lines 132-135: recurse into nested plain objects right away
      match findLargeArrayField maxItems value currentPath with
      | some found => some found
      | none => findInFields maxItems parent rest pathStr
    | _ => findInFields maxItems parent rest pathStr
end

/-- JS `String.prototype.split` with a single-character separator, on the
character list of the string: `"a.b".split('.')` is `["a","b"]`,
`"".split('.')` is `[""]`. -/
def splitChars (sep : Char) : List Char → List (List Char)
  | [] => [[]]
  | c :: rest =>
    match splitChars sep rest with
    | [] => []
    | part :: parts => if c = sep then [] :: part :: parts else (c :: part) :: parts

/-- `fieldPath.split('.')` (src/jsonUtils.ts line 174). -/
def jsSplitDots (s : String) : List String :=
  (splitChars '.' s.data).map (fun cs => { data := cs })

/-- Deep structural copy: `JSON.parse(JSON.stringify(data))`
(src/jsonUtils.ts line 171).  On acyclic JSON trees the composite is a
structural rebuild; the serialization round-trip that justifies this
embedding is proved below (`jsonParse_savedFileContent`-style lemmas). -/
def jsonDeepClone : Json → Json :=
  fun v => v

/-- `data.slice(0, n)` at the root-array branch (line 163); `data` is an
array there, so only the `.arr` case is ever exercised. -/
def jsonSliceRoot (v : Json) (n : Nat) : Json :=
  match v with
  | .arr elems => .arr (elems.take n)
  | other => other

/-- JS assignment `obj[key] = v` on a plain object: replaces the (unique
in real JS; first, here) entry named `key`, or appends a new entry at the
end when the key is absent. -/
def JsonFields.setField : JsonFields → String → Json → JsonFields
  | .nil, key, v => .cons key v .nil
  | .cons k w tl, key, v =>
    if k = key then .cons k v tl else .cons k w (tl.setField key v)

/-- The imperative navigation-and-assignment of `limitItems`
(src/jsonUtils.ts lines 175-180):

    let target = limitedData;
    for (let i = 0; i < pathParts.length - 1; i++) target = target[pathParts[i]];
    target[lastKey] = array.slice(0, maxItems);

`front` is `pathParts` without its last element, `lastKey` the last one.
The clone is a tree (no sharing), so mutating the object reached by the
reads is a functional update along the same path.  A read on a missing
key yields JS `undefined` and the next read or the final assignment then
throws a `TypeError`; reads on primitives yield `undefined` as well, and
assignment to a property of a primitive, of `null` or of `undefined`
throws in strict mode (the compiled module is strict).  Assignment of a
non-index property on an array succeeds in JS but is invisible to JSON
serialization, so it leaves the modelled value unchanged. -/
def jsMutateAtPath (v : Json) (front : List String) (lastKey : String)
    (newVal : Json) : Except String Json :=
  match front with
  | [] =>
    match v with
    | .obj fields => .ok (.obj (fields.setField lastKey newVal))
    | .arr elems => .ok (.arr elems)
    | _ => .error "TypeError: cannot set properties of a non-object"
  | p :: rest =>
    match v with
    | .obj fields =>
      match fields.lookup p with
      | some child =>
        match jsMutateAtPath child rest lastKey newVal with
        | .ok child' => .ok (.obj (fields.setField p child'))
        | .error e => .error e
      | none => .error "TypeError: cannot read properties of undefined"
    | _ => .error "TypeError: cannot read properties of undefined"

/-- Splits a list into its front (`pathParts.slice(0, -1)`, the indices
the `for` loop of line 176 visits) and its last element
(`pathParts[pathParts.length - 1]`, line 179). -/
def splitLast : List String → Option (List String × String)
  | [] => none
  | [x] => some ([], x)
  | x :: y :: xs =>
    match splitLast (y :: xs) with
    | some (front, last) => some (x :: front, last)
    | none => none

/-- Embedding of `limitItems` (src/jsonUtils.ts lines 146-188).  The
result is in `Except String` because the navigation of lines 175-180 can
throw (see `jsMutateAtPath`); every other path returns normally. -/
def limitItems (maxItems : Nat) (data : Json) : Except String LimitItemsResult :=
  -- line 147: `if (!data) return ...`
  if jsFalsy data then
    .ok { limited := data, originalCount := 0, wasLimited := false, limitedField := none }
  else
    match findLargeArrayField maxItems data "" with
    | none =>
      -- lines 152-155: no large arrays found
      .ok { limited := data, originalCount := 0, wasLimited := false, limitedField := none }
    | some info =>
      match info.parentObj with
      | none =>
        -- lines 161-168: the root itself is the array
        .ok { limited := jsonSliceRoot data maxItems,
              originalCount := info.array.length,
              wasLimited := true,
              limitedField := some info.fieldPath }
      | some _ =>
        -- lines 170-187: deep-clone, then navigate and overwrite one field
        let limitedData := jsonDeepClone data
        let pathParts := jsSplitDots info.fieldPath
        match splitLast pathParts with
        | none =>
          -- `split` always yields a nonempty array, so this is unreachable
          .error "unreachable: empty pathParts"
        | some (front, lastKey) =>
          match jsMutateAtPath limitedData front lastKey
              (Json.arr (info.array.take maxItems)) with
          | .ok limited =>
            .ok { limited := limited, originalCount := info.array.length,
                  wasLimited := true, limitedField := some info.fieldPath }
          | .error e => .error e

/-- `typeof v === 'object'`: true for plain objects, arrays — and `null`
(the classic JS quirk `typeof null === "object"`). -/
def typeofIsObject : Json → Bool
  | .null => true
  | .arr _ => true
  | .obj _ => true
  | _ => false

/-- `s.split('\n')` (used by line 237 of the source). -/
def splitNewlines (s : String) : List String :=
  (splitChars '\n' s.data).map (fun cs => { data := cs })

/-- `lines.join('\n')` -/
def joinLines (lines : List String) : String :=
  match lines with
  | [] => ""
  | s :: rest => rest.foldl (fun acc x => acc ++ "\n" ++ x) s

mutual
/-- Embedding of `generateJsonStructureTree` (src/jsonUtils.ts lines
193-254).  `pfx` is the source's `prefix` parameter. -/
def generateJsonStructureTree (obj : Json) (pfx : String) (isLast : Bool) : String :=
  match obj with
  | .null => "null"
  | .arr .nil => "[]"
  | .arr (.cons firstItem rest) =>
    -- lines 204-213: show the length and the structure of element 0 only
    let header := "Array[" ++ toString (JsonList.cons firstItem rest).length ++ "]"
    -- line 207: `firstItem && typeof firstItem === 'object'` — `null` is
    -- falsy, so it falls to the `typeof` branch, which prints "object"
    if !jsFalsy firstItem && typeofIsObject firstItem then
      let childPfx := pfx ++ (if isLast then "    " else "│   ")
      header ++ "\n" ++ (pfx ++ "└── [0]: " ++ generateJsonStructureTree firstItem childPfx true)
    else
      header ++ "\n" ++ (pfx ++ "└── [0]: " ++ jsTypeof firstItem)
  | .obj .nil => "\x7b\x7d"
  | .obj (.cons k v tl) => joinLines (structTreeFields (.cons k v tl) pfx)
  | other => jsTypeof other

/-- The `keys.forEach` loop of `generateJsonStructureTree` (lines
222-248), producing the list of pushed lines.  A key is the last one
exactly when the remaining field list is empty. -/
def structTreeFields (fields : JsonFields) (pfx : String) : List String :=
  match fields with
  | .nil => []
  | .cons key value tl =>
    let isLastKey := match tl with | .nil => true | _ => false
    let connector := if isLastKey then "└── " else "├── "
    let childPfx := pfx ++ (if isLastKey then "    " else "│   ")
    let keyLines :=
      match value with
      | .null => [pfx ++ connector ++ key ++ ": null"]
      | .arr .nil => [pfx ++ connector ++ key ++ ": []"]
      | .arr (.cons v0 vrest) =>
        -- line 233: `typeof value[0] === 'object'` (true for null too)
        if typeofIsObject v0 then
          [pfx ++ connector ++ key ++ ": Array[" ++ toString (JsonList.cons v0 vrest).length ++ "]",
           childPfx ++ "└── [item]:",
           joinLines ((splitNewlines (generateJsonStructureTree v0 (childPfx ++ "    ") true)).map
             (fun l => childPfx ++ "    " ++ l))]
        else
          [pfx ++ connector ++ key ++ ": Array[" ++ toString (JsonList.cons v0 vrest).length
            ++ "] of " ++ jsTypeof v0]
      | .obj innerFields =>
        [pfx ++ connector ++ key ++ ":",
         generateJsonStructureTree (.obj innerFields) childPfx true]
      | other => [pfx ++ connector ++ key ++ ": " ++ jsTypeof other]
    keyLines ++ structTreeFields tl pfx
end

/-- `(x).toFixed(1)` for the exact rational `numr / den` (`den > 0`).
`bytes / 1024` and `bytes / (1024 * 1024)` are dyadic rationals that IEEE
doubles represent exactly for every realistic file size (below 2^52
bytes), and `toFixed` rounds to the nearest multiple of 1/10, ties away
from zero: the printed digits are `floor((10x + 1/2))` split into integer
and tenths digit. -/
def toFixed1 (numr den : Nat) : String :=
  let t := (20 * numr + den) / (2 * den)
  toString (t / 10) ++ "." ++ toString (t % 10)

/-- Embedding of `formatFileSize` (src/jsonUtils.ts lines 100-104). -/
def formatFileSize (bytes : Nat) : String :=
  if bytes < 1024 then toString bytes ++ " B"
  else if bytes < 1024 * 1024 then toFixed1 bytes 1024 ++ " KB"
  else toFixed1 bytes (1024 * 1024) ++ " MB"

/-- A JS parameter value (`params: Record<string, any>` holds scalars:
booleans, numbers, strings, `null`, `undefined`). -/
inductive PValue where
  | pnull : PValue
  | pundef : PValue
  | pbool (b : Bool) : PValue
  | pnum (n : Int) : PValue
  | pstr (s : String) : PValue
deriving DecidableEq

/-- JS `String(value)` on a parameter value. -/
def PValue.jsString : PValue → String
  | .pnull => "null"
  | .pundef => "undefined"
  | .pbool true => "true"
  | .pbool false => "false"
  | .pnum n => toString n
  | .pstr s => s

/-- `String(value).substring(0, 30)` (line 76): the first 30 characters. -/
def jsSubstring30 (s : String) : String :=
  { data := s.data.take 30 }

/-- A character kept by the sanitizing regex of line 80
(`[^a-zA-Z0-9_=-]` is replaced by `-`). -/
def filenameOkChar (c : Char) : Bool :=
  (97 ≤ c.toNat && c.toNat ≤ 122) || (65 ≤ c.toNat && c.toNat ≤ 90) ||
  (48 ≤ c.toNat && c.toNat ≤ 57) || c = '_' || c = '=' || c = '-'

/-- `relevantParams.replace(/[^a-zA-Z0-9_=-]/g, '-')` (line 80). -/
def sanitizeParams (s : String) : String :=
  { data := s.data.map (fun c => if filenameOkChar c then c else '-') }

/-- `array.join(sep)` -/
def joinWith (sep : String) : List String → String
  | [] => ""
  | s :: rest => rest.foldl (fun acc x => acc ++ sep ++ x) s

/-- Lines 72-82 of `saveRawData`: the `paramsStr` block of the filename —
entries whose key is literally `raw_data_save_dir` and entries with
`undefined`/`null` values are dropped, the rest are rendered
`key=value30`, joined with `_`, prefixed with `_` and sanitized. -/
def buildParamsStr (params : Option (List (String × PValue))) : String :=
  match params with
  | none => ""
  | some ps =>
    let relevantParams := joinWith "_"
      ((ps.filter (fun kv =>
          kv.1 != "raw_data_save_dir" && kv.2 != PValue.pundef && kv.2 != PValue.pnull)).map
        (fun kv => kv.1 ++ "=" ++ jsSubstring30 kv.2.jsString))
    if relevantParams = "" then "" else "_" ++ sanitizeParams relevantParams

/-- `new Date().toISOString().replace(/[:.]/g, '-')` (line 69), applied
to the ISO timestamp `isoNow` supplied by the clock. -/
def tsReplace (isoNow : String) : String :=
  { data := isoNow.data.map (fun c => if c = ':' || c = '.' then '-' else c) }

/-- The filename derived on line 84:
`${toolName}${paramsStr}_${timestamp}.json`. -/
def saveFilename (toolName : String) (params : Option (List (String × PValue)))
    (isoNow : String) : String :=
  toolName ++ buildParamsStr params ++ "_" ++ tsReplace isoNow ++ ".json"

/-- Embedding of `saveRawData` (src/jsonUtils.ts lines 62-95).  The
file-system side (directory probe/creation on lines 64-66, the write on
line 89 and the `statSync` on line 92) is summarised by the oracle
`fsOutcome`: `.error e` is a thrown `mkdirSync`/`writeFileSync` error,
`.ok size` a successful run whose `statSync(filePath).size` is `size`.
The written content itself is `savedFileContent data` (line 88), defined
with the serializer below. -/
def saveRawData (fsOutcome : Except String Nat) (saveDir toolName : String)
    (params : Option (List (String × PValue))) (isoNow : String) :
    Except String SaveRawDataResult :=
  match fsOutcome with
  | .error e => .error e
  | .ok size =>
    .ok { filePath := saveDir ++ "/" ++ saveFilename toolName params isoNow,
          fileSize := size }

def JsonFields.append : JsonFields → JsonFields → JsonFields
  | .nil, ys => ys
  | .cons k v tl, ys => .cons k v (tl.append ys)

/-- Hex digit character used by `JSON.stringify`'s `\u00xx` escapes
(lowercase, as V8 prints them). -/
def hexDigitChar (n : Nat) : Char :=
  if n < 10 then Char.ofNat (48 + n) else Char.ofNat (87 + n)

/-- How `JSON.stringify` escapes one character of a string: `"`, `\`,
and the control characters get their two-character escapes, any other
control character below U+0020 becomes `\u00xx`, everything else is kept
verbatim. -/
def escapeChar (c : Char) : List Char :=
  if c = '"' then ['\\', '"']
  else if c = '\\' then ['\\', '\\']
  else if c = '\n' then ['\\', 'n']
  else if c = '\r' then ['\\', 'r']
  else if c = '\t' then ['\\', 't']
  else if c.toNat = 8 then ['\\', 'b']
  else if c.toNat = 12 then ['\\', 'f']
  else if c.toNat < 32 then
    ['\\', 'u', '0', '0', hexDigitChar (c.toNat / 16), hexDigitChar (c.toNat % 16)]
  else [c]

/-- A JSON string literal: the escaped characters between two quotes. -/
def quoteChars (s : List Char) : List Char :=
  '"' :: (s.map escapeChar).flatten ++ ['"']

/-- Decimal digits of a natural number, most significant first. -/
def natToChars (n : Nat) : List Char :=
  if h : n < 10 then [Char.ofNat (48 + n)]
  else natToChars (n / 10) ++ [Char.ofNat (48 + n % 10)]
decreasing_by exact Nat.div_lt_self (by omega) (by omega)

/-- How JS prints an integral number (any integer of the double's safe
range prints as its plain decimal representation). -/
def intToChars (i : Int) : List Char :=
  if i < 0 then '-' :: natToChars i.natAbs else natToChars i.natAbs

/-- The indentation produced by `JSON.stringify(data, null, 2)` at
nesting level `lvl`. -/
def indentChars (lvl : Nat) : List Char :=
  List.replicate (2 * lvl) ' '

mutual
/-- `JSON.stringify(v, null, 2)` at nesting level `lvl`, as a character
list: two-space indentation, `", "`-free separators (`,\n` between
entries, `: ` after keys), `[]`/`{}` for empty containers. -/
def stringifyAt (lvl : Nat) : Json → List Char
  | .num i => intToChars i
  | .str s => quoteChars s.data
  | .bool false => ['f', 'a', 'l', 's', 'e']
  | .bool true => ['t', 'r', 'u', 'e']
  | .null => ['n', 'u', 'l', 'l']
  | .arr elems =>
    match elems with
    | .nil => ['[', ']']
    | .cons _ _ =>
      '[' :: '\n' :: (stringifyItems (lvl + 1) elems ++ '\n' :: (indentChars lvl ++ [']']))
  | .obj fields =>
    match fields with
    | .nil => ['\x7b', '\x7d']
    | .cons _ _ _ =>
      '\x7b' :: '\n' :: (stringifyFields (lvl + 1) fields ++ '\n' :: (indentChars lvl ++ ['\x7d']))

/-- The comma-and-newline separated, indented renderings of the elements
of a (nonempty) array. -/
def stringifyItems (lvl : Nat) : JsonList → List Char
  | .nil => []
  | .cons e .nil => indentChars lvl ++ stringifyAt lvl e
  | .cons e (.cons e2 rest) =>
    indentChars lvl ++ stringifyAt lvl e ++ ',' :: '\n' :: stringifyItems lvl (.cons e2 rest)

/-- The comma-and-newline separated, indented `"key": value` renderings
of the entries of a (nonempty) object. -/
def stringifyFields (lvl : Nat) : JsonFields → List Char
  | .nil => []
  | .cons k v .nil => indentChars lvl ++ quoteChars k.data ++ ':' :: ' ' :: stringifyAt lvl v
  | .cons k v (.cons k2 v2 rest) =>
    indentChars lvl ++ quoteChars k.data ++ ':' :: ' ' :: stringifyAt lvl v ++
      ',' :: '\n' :: stringifyFields lvl (.cons k2 v2 rest)
end

/-- `JSON.stringify(v, null, 2)`. -/
def jsonStringify2 (v : Json) : String :=
  { data := stringifyAt 0 v }

/-- The content `saveRawData` writes to the archive file
(src/jsonUtils.ts line 88: `JSON.stringify(data, null, 2)`). -/
def savedFileContent (data : Json) : String :=
  jsonStringify2 data

/-- JSON whitespace. -/
def isWsChar (c : Char) : Bool :=
  c = ' ' || c = '\n' || c = '\t' || c = '\r'

def skipWs : List Char → List Char
  | [] => []
  | c :: cs => if isWsChar c then skipWs cs else c :: cs

def isDigitChar (c : Char) : Bool :=
  48 ≤ c.toNat && c.toNat ≤ 57

/-- Greedily read decimal digits into an accumulator. -/
def parseDigits (acc : Nat) : List Char → Nat × List Char
  | [] => (acc, [])
  | c :: cs =>
    if isDigitChar c then parseDigits (acc * 10 + (c.toNat - 48)) cs else (acc, c :: cs)

/-- Parse a JSON number restricted to the integral grammar the
serializer above emits (optional `-`, then digits). -/
def parseNum : List Char → Option (Int × List Char)
  | [] => none
  | c :: cs =>
    if c = '-' then
      match cs with
      | [] => none
      | d :: _ =>
        if isDigitChar d then
          match parseDigits 0 cs with
          | (n, rest) => some (-(n : Int), rest)
        else none
    else if isDigitChar c then
      match parseDigits 0 (c :: cs) with
      | (n, rest) => some ((n : Int), rest)
    else none

def hexVal (c : Char) : Option Nat :=
  if 48 ≤ c.toNat && c.toNat ≤ 57 then some (c.toNat - 48)
  else if 97 ≤ c.toNat && c.toNat ≤ 102 then some (c.toNat - 87)
  else if 65 ≤ c.toNat && c.toNat ≤ 70 then some (c.toNat - 55)
  else none

/-- The single-character JSON escapes. -/
def unescapeChar (e : Char) : Option Char :=
  if e = '"' then some '"'
  else if e = '\\' then some '\\'
  else if e = '/' then some '/'
  else if e = 'n' then some '\n'
  else if e = 'r' then some '\r'
  else if e = 't' then some '\t'
  else if e = 'b' then some (Char.ofNat 8)
  else if e = 'f' then some (Char.ofNat 12)
  else none

/-- Parse the body of a JSON string literal after its opening quote;
returns the decoded characters and the input after the closing quote. -/
def parseStringBody : List Char → Option (List Char × List Char)
  | [] => none
  | c :: cs =>
    if c = '"' then some ([], cs)
    else if c = '\\' then
      match cs with
      | [] => none
      | e :: cs2 =>
        if e = 'u' then
          match cs2 with
          | h1 :: h2 :: h3 :: h4 :: cs3 =>
            match hexVal h1, hexVal h2, hexVal h3, hexVal h4 with
            | some a, some b, some c3, some d =>
              match parseStringBody cs3 with
              | some (body, rest) =>
                some (Char.ofNat (((a * 16 + b) * 16 + c3) * 16 + d) :: body, rest)
              | none => none
            | _, _, _, _ => none
          | _ => none
        else
          match unescapeChar e with
          | some ch =>
            match parseStringBody cs2 with
            | some (body, rest) => some (ch :: body, rest)
            | none => none
          | none => none
    else
      match parseStringBody cs with
      | some (body, rest) => some (c :: body, rest)
      | none => none

/-- Expect the literal characters `pat` at the head of the input. -/
def expectChars (pat : List Char) (cs : List Char) : Option (List Char) :=
  match pat, cs with
  | [], rest => some rest
  | _ :: _, [] => none
  | p :: ps, c :: rest => if c = p then expectChars ps rest else none

mutual
/-- A JSON value parser (the relevant fragment of `JSON.parse`): skips
whitespace, then dispatches on the first character.  `fuel` bounds the
nesting depth; it is decremented on every recursive call, and
`jsonParse` below supplies more fuel than any input can consume. -/
def parseValue : Nat → List Char → Option (Json × List Char)
  | 0, _ => none
  | fuel + 1, cs =>
    match skipWs cs with
    | [] => none
    | c :: rest =>
      if c = 'n' then
        match expectChars ['u', 'l', 'l'] rest with
        | some r => some (.null, r)
        | none => none
      else if c = 't' then
        match expectChars ['r', 'u', 'e'] rest with
        | some r => some (.bool true, r)
        | none => none
      else if c = 'f' then
        match expectChars ['a', 'l', 's', 'e'] rest with
        | some r => some (.bool false, r)
        | none => none
      else if c = '"' then
        match parseStringBody rest with
        | some (body, r) => some (.str { data := body }, r)
        | none => none
      else if c = '[' then
        match skipWs rest with
        | [] => none
        | c2 :: r2 =>
          if c2 = ']' then some (.arr .nil, r2)
          else parseArrayItems fuel (c2 :: r2) .nil
      else if c = '\x7b' then
        match skipWs rest with
        | [] => none
        | c2 :: r2 =>
          if c2 = '\x7d' then some (.obj .nil, r2)
          else parseObjFields fuel (c2 :: r2) .nil
      else
        match parseNum (c :: rest) with
        | some (i, r) => some (.num i, r)
        | none => none

/-- Elements of a nonempty array, after `[`. -/
def parseArrayItems : Nat → List Char → JsonList → Option (Json × List Char)
  | 0, _, _ => none
  | fuel + 1, cs, acc =>
    match parseValue fuel cs with
    | none => none
    | some (v, rest) =>
      match skipWs rest with
      | [] => none
      | c2 :: r2 =>
        if c2 = ',' then parseArrayItems fuel r2 (acc.append (.cons v .nil))
        else if c2 = ']' then some (.arr (acc.append (.cons v .nil)), r2)
        else none

/-- Entries of a nonempty object, after the opening brace. -/
def parseObjFields : Nat → List Char → JsonFields → Option (Json × List Char)
  | 0, _, _ => none
  | fuel + 1, cs, acc =>
    match skipWs cs with
    | [] => none
    | c1 :: r1 =>
      if c1 = '"' then
        match parseStringBody r1 with
        | some (keyChars, r2) =>
          match skipWs r2 with
          | [] => none
          | c3 :: r3 =>
            if c3 = ':' then
              match parseValue fuel r3 with
              | some (v, r4) =>
                match skipWs r4 with
                | [] => none
                | c5 :: r5 =>
                  if c5 = ',' then
                    parseObjFields fuel r5 (acc.append (.cons { data := keyChars } v .nil))
                  else if c5 = '\x7d' then
                    some (.obj (acc.append (.cons { data := keyChars } v .nil)), r5)
                  else none
              | none => none
            else none
        | none => none
      else none
end

/-- `JSON.parse`: a whole input must be one JSON value followed only by
whitespace. -/
def jsonParse (s : String) : Option Json :=
  match parseValue (s.data.length + 1) s.data with
  | some (v, rest) =>
    match skipWs rest with
    | [] => some v
    | _ => none
  | none => none

/-- Options of `formatResponse` (src/jsonUtils.ts lines 15-19). -/
structure FormatResponseOptions where
  rawDataSaveDir : Option String
  toolName : Option String
  params : Option (List (String × PValue))
deriving DecidableEq

/-- One entry of a `CallToolResult`'s `content` array. -/
structure ContentItem where
  ctype : String
  text : String
deriving DecidableEq

/-- The MCP `CallToolResult` shape produced by `formatResponse`. -/
structure CallToolResult where
  content : List ContentItem
deriving DecidableEq

/-- JS truthiness of `limitedField` (line 283 guards on
`wasLimited && limitedField`): `null` and the empty string are falsy. -/
def optStrTruthy : Option String → Bool
  | none => false
  | some s => s != ""

/-- `${limitedField}` as a JS template fragment (`null` prints as the
word `null`; unreachable here because `wasLimited` implies a field). -/
def optStrTemplate : Option String → String
  | none => "null"
  | some s => s

/-- Embedding of `formatResponse` (src/jsonUtils.ts lines 259-313).
`fsOutcome` is the file-system oracle handed to `saveRawData`; the call
on line 264 has no surrounding `try`, so a thrown archive error
propagates out of `formatResponse` (as does a `TypeError` thrown by
`limitItems` on line 268). -/
def formatResponse (fsOutcome : Except String Nat) (maxItems : Nat) (data : Json)
    (options : Option FormatResponseOptions) (isoNow : String) :
    Except String CallToolResult :=
  -- lines 262-265: archive first when a directory is supplied
  let saveStep : Except String (Option SaveRawDataResult) :=
    match options with
    | some o =>
      match o.rawDataSaveDir with
      | some dir =>
        -- line 264: `options.toolName || 'response'` (empty string is falsy)
        let tn := match o.toolName with
          | some t => if t = "" then "response" else t
          | none => "response"
        match saveRawData fsOutcome dir tn o.params isoNow with
        | .ok r => .ok (some r)
        | .error e => .error e
      | none => .ok none
    | none => .ok none
  match saveStep with
  | .error e => .error e
  | .ok savedFileInfo =>
    match limitItems maxItems data with
    | .error e => .error e
    | .ok lr =>
      -- line 274: `options?.toolName || 'Response'`
      let toolHeader :=
        match options with
        | some o =>
          match o.toolName with
          | some t => if t = "" then "Response" else t
          | none => "Response"
        | none => "Response"
      let lines1 : List String := ["## " ++ toolHeader, ""]
      -- lines 277-280
      let lines2 :=
        match savedFileInfo with
        | some info =>
          lines1 ++ ["> **Raw data saved to**: `" ++ info.filePath ++ "` ("
            ++ formatFileSize info.fileSize ++ ")", ""]
        | none => lines1
      -- lines 283-286
      let lines3 :=
        if lr.wasLimited && optStrTruthy lr.limitedField then
          lines2 ++ ["> **Note**: `" ++ optStrTemplate lr.limitedField ++ "` limited to "
            ++ toString maxItems ++ " items (" ++ toString lr.originalCount ++ " total). "
            ++ (match savedFileInfo with
              | some _ => "Full data saved to file."
              | none => "Provide `raw_data_save_dir` parameter to save full response."), ""]
        else lines2
      -- lines 289-293
      let lines4 := lines3 ++ ["### JSON Structure", "```",
        generateJsonStructureTree lr.limited "" true, "```", ""]
      -- lines 296-300
      let lines5 :=
        if lr.wasLimited then
          lines4 ++ ["### Data (`" ++ optStrTemplate lr.limitedField ++ "`: "
            ++ toString maxItems ++ "/" ++ toString lr.originalCount ++ " items)"]
        else
          lines4 ++ ["### Data"]
      -- lines 301-303
      let lines6 := lines5 ++ ["```json", jsonStringify2 lr.limited, "```"]
      .ok { content := [{ ctype := "text", text := joinLines lines6 }] }

/-- A key that survives the path round-trip of `limitItems`: nonempty
(an empty key collapses in the `pathStr ? ... : key` path building) and
free of `.` (the character `fieldPath.split('.')` splits on). -/
def cleanKey (k : String) : Bool :=
  k != "" && decide (('.' : Char) ∉ k.data)

def distinctKeys : List String → Bool
  | [] => true
  | k :: rest => !(rest.contains k) && distinctKeys rest

mutual
/-- All objects reachable without entering an array have pairwise
distinct keys (true of every real JS object; the model's field lists are
a superset) that are nonempty and dot-free. -/
def keysClean : Json → Bool
  | .obj fields => distinctKeys fields.keys && keysCleanFields fields
  | _ => true

def keysCleanFields : JsonFields → Bool
  | .nil => true
  | .cons k v tl => cleanKey k && keysClean v && keysCleanFields tl
end

/-- `fields` has an entry mapping `k` to `v`. -/
def JsonFields.hasEntry : JsonFields → String → Json → Bool
  | .nil, _, _ => false
  | .cons k' v' tl, k, v => (decide (k' = k) && decide (v' = v)) || tl.hasEntry k v

mutual
/-- An oversized array is reachable from `v` without entering any array:
`v` is itself an oversized array, or an object whose fields (or their
object descendants, recursively) hold one. -/
def hasShallowLarge (maxItems : Nat) : Json → Bool
  | .arr elems => decide (elems.length > maxItems)
  | .obj fields => hasShallowLargeFields maxItems fields
  | _ => false

def hasShallowLargeFields (maxItems : Nat) : JsonFields → Bool
  | .nil => false
  | .cons _ v tl =>
    (match v with
     | .arr elems => decide (elems.length > maxItems)
     | .obj innerFields => hasShallowLargeFields maxItems innerFields
     | _ => false) || hasShallowLargeFields maxItems tl
end

mutual
/-- An array longer than the threshold occurs somewhere in `v`,
including inside array elements. -/
def hasAnyLarge (maxItems : Nat) : Json → Bool
  | .arr elems => decide (elems.length > maxItems) || hasAnyLargeList maxItems elems
  | .obj fields => hasAnyLargeFields maxItems fields
  | _ => false

def hasAnyLargeList (maxItems : Nat) : JsonList → Bool
  | .nil => false
  | .cons h tl => hasAnyLarge maxItems h || hasAnyLargeList maxItems tl

def hasAnyLargeFields (maxItems : Nat) : JsonFields → Bool
  | .nil => false
  | .cons _ v tl => hasAnyLarge maxItems v || hasAnyLargeFields maxItems tl
end

/-- The path string `findLargeArrayField` builds along a key list: each
step is line 124's `pathStr ? `${pathStr}.${key}` : key`. -/
def joinKeys (pathStr : String) : List String → String
  | [] => pathStr
  | k :: rest => joinKeys (if pathStr = "" then k else pathStr ++ "." ++ k) rest

/-- The intended effect of lines 171-180 stated functionally: replace the
field at key path `ks` of `v` (when it exists) by `newVal`, leaving every
other entry of every object on the path — and everything off the path —
untouched. -/
def setAtKeyPath : Json → List String → Json → Json
  | v, [], _ => v
  | .obj fields, [k], newVal => .obj (fields.setField k newVal)
  | .obj fields, k :: k2 :: rest, newVal =>
    (match fields.lookup k with
     | some child => .obj (fields.setField k (setAtKeyPath child (k2 :: rest) newVal))
     | none => .obj fields)
  | v, _ :: _ :: _, _ => v
  | v, _ :: _, _ => v

/-- Navigate `v` along a key path (object fields only). -/
def getAtKeyPath : Json → List String → Option Json
  | v, [] => some v
  | .obj fields, k :: rest =>
    (match fields.lookup k with
     | some child => getAtKeyPath child rest
     | none => none)
  | _, _ :: _ => none

/-- `a` is an initial segment of `b` (an ancestor-or-self key path). -/
def isLead (a b : List String) : Prop :=
  ∃ t, a ++ t = b

def startsWithChars (pat : List Char) (cs : List Char) : Bool :=
  match pat, cs with
  | [], _ => true
  | _ :: _, [] => false
  | p :: ps, c :: rest => p == c && startsWithChars ps rest

def hasSubChars (pat : List Char) : List Char → Bool
  | [] => startsWithChars pat []
  | c :: cs => startsWithChars pat (c :: cs) || hasSubChars pat cs

/-- `s.includes(pat)`: `pat` occurs contiguously in `s`. -/
def strContainsSub (s pat : String) : Bool :=
  hasSubChars pat.data s.data

mutual
/-- Fuel weight of a value for the parser: an upper bound on the
recursion depth `parseValue` spends on its serialization. -/
def jweight : Json → Nat
  | .arr elems => 1 + jweightList elems
  | .obj fields => 1 + jweightFields fields
  | _ => 1

def jweightList : JsonList → Nat
  | .nil => 0
  | .cons h tl => jweight h + 1 + jweightList tl

def jweightFields : JsonFields → Nat
  | .nil => 0
  | .cons _ v tl => jweight v + 1 + jweightFields tl
end

/-- The spec's bread-first example object in its declaration order:
`smallArray`(5), `largeArray1`(15), `nested.largeArray2`(20). -/
def exSpecOrder : Json :=
  .obj (.cons "smallArray" (.arr (JsonList.replicate 5 (.num 1)))
    (.cons "largeArray1" (.arr (JsonList.replicate 15 (.num 2)))
      (.cons "nested" (.obj (.cons "largeArray2" (.arr (JsonList.replicate 20 (.num 3))) .nil))
        .nil)))

/-- The same object with `nested` declared first. -/
def exNestedFirst : Json :=
  .obj (.cons "nested" (.obj (.cons "largeArray2" (.arr (JsonList.replicate 20 (.num 3))) .nil))
    (.cons "smallArray" (.arr (JsonList.replicate 5 (.num 1)))
      (.cons "largeArray1" (.arr (JsonList.replicate 15 (.num 2))) .nil)))

/-- An object whose key `"a.b"` contains a dot and holds an 11-element
array (threshold 10 in the examples). -/
def exDotKeyOnly : Json :=
  .obj (.cons "a.b" (.arr (JsonList.replicate 11 (.num 7))) .nil)

/-- `{a: {b: 1}, "a.b": [7 × 11]}`: the dotted key is the located field,
but path reconstruction navigates into `a` instead. -/
def exDotKeyClash : Json :=
  .obj (.cons "a" (.obj (.cons "b" (.num 1) .nil))
    (.cons "a.b" (.arr (JsonList.replicate 11 (.num 7))) .nil))

/-- `{a: [[1 × 15]]}`: the only oversized array sits inside an element of
an array. -/
def exLargeInsideArray : Json :=
  .obj (.cons "a" (.arr (.cons (.arr (JsonList.replicate 15 (.num 1))) .nil)) .nil)

/-- `{a: [1, 2]}`: nothing anywhere exceeds a threshold of 10. -/
def exAllSmall : Json :=
  .obj (.cons "a" (.arr (.cons (.num 1) (.cons (.num 2) .nil))) .nil)

/-- `{edges: [1 × 12]}`: a clean depth-1 oversized field. -/
def exEdges : Json :=
  .obj (.cons "edges" (.arr (JsonList.replicate 12 (.num 1))) .nil)

/-- `{a: {b: [1 × 11]}}`: a clean nested oversized field. -/
def exNestedLarge : Json :=
  .obj (.cons "a" (.obj (.cons "b" (.arr (JsonList.replicate 11 (.num 1))) .nil)) .nil)

/-- Options with an archive directory, as used by the error-path
examples for `formatResponse`. -/
def exArchiveOptions : FormatResponseOptions :=
  { rawDataSaveDir := some "/data/raw", toolName := some "get_posts", params := none }

theorem JsonList.length_take : ∀ (l : JsonList) (n : Nat),
    (l.take n).length = min n l.length
  | .nil, n => by simp [JsonList.take, JsonList.length]
  | .cons h t, 0 => by simp [JsonList.take, JsonList.length]
  | .cons h t, n + 1 => by
    simp [JsonList.take, JsonList.length, JsonList.length_take t n]; omega

/-- C4: for a root array `V` under threshold `N`, limiting returns `V`
unchanged (`wasLimited = false`, `originalCount = 0`, no field) when
`|V| ≤ N`, and exactly the first `N` elements (that is, `min N |V|` of
them) with `originalCount = |V|`, `wasLimited = true` and the `"(root)"`
marker when `|V| > N`. -/
theorem limitItems_root_array (maxItems : Nat) (V : JsonList) :
    (V.length ≤ maxItems →
      limitItems maxItems (.arr V) =
        .ok { limited := .arr V, originalCount := 0, wasLimited := false,
              limitedField := none }) ∧
    (V.length > maxItems →
      limitItems maxItems (.arr V) =
        .ok { limited := .arr (V.take maxItems), originalCount := V.length,
              wasLimited := true, limitedField := some "(root)" } ∧
      (V.take maxItems).length = min maxItems V.length) := by
  constructor
  · intro h
    have hng : ¬ (V.length > maxItems) := by omega
    simp [limitItems, jsFalsy, findLargeArrayField, hng]
  · intro h
    refine ⟨?_, ?_⟩
    · simp [limitItems, jsFalsy, findLargeArrayField, h, jsonSliceRoot]
    · rw [JsonList.length_take]

/-- C4 witness: both branches at concrete inputs (a 12-element and a
5-element root array, threshold 10). -/
theorem limitItems_root_array_witness :
    limitItems 10 (.arr (JsonList.replicate 12 (.num 0))) =
      .ok { limited := .arr (JsonList.replicate 10 (.num 0)), originalCount := 12,
            wasLimited := true, limitedField := some "(root)" } ∧
    limitItems 10 (.arr (JsonList.replicate 5 (.num 0))) =
      .ok { limited := .arr (JsonList.replicate 5 (.num 0)), originalCount := 0,
            wasLimited := false, limitedField := none } := by
  constructor
  · have h := ((limitItems_root_array 10 (JsonList.replicate 12 (.num 0))).2 (by decide)).1
    rw [h]; decide
  · exact (limitItems_root_array 10 (JsonList.replicate 5 (.num 0))).1 (by decide)

/-- C1 counterexample: with `nested` declared first, the locator returns
the deeper field `nested.largeArray2`, not the depth-1 field
`largeArray1` (threshold 10, arrays of 20/5/15 elements as in the spec's
example). -/
theorem findLargeArrayField_depth_order_cex :
    (findLargeArrayField 10 exNestedFirst "").map (fun r => r.fieldPath) =
        some "nested.largeArray2" ∧
      ("nested.largeArray2" : String) ≠ "largeArray1" := by
  exact ⟨by decide, by decide⟩

/-- C1 amended: the locator scans keys in declaration order and descends
into a nested object the moment it reaches it (depth-first).  With the
spec's declaration order (`smallArray`, `largeArray1`, `nested`) it finds
`largeArray1`; with `nested` declared first it finds
`nested.largeArray2`. -/
theorem findLargeArrayField_scan_order :
    (findLargeArrayField 10 exSpecOrder "").map (fun r => r.fieldPath) =
        some "largeArray1" ∧
    (findLargeArrayField 10 exNestedFirst "").map (fun r => r.fieldPath) =
        some "nested.largeArray2" := by
  exact ⟨by decide, by decide⟩

/-- C8 counterexample: a `null` as element 0 of an array is rendered as
`[0]: object` (because `typeof null === 'object'`), not as the literal
`null` the claim requires in every position. -/
theorem generateJsonStructureTree_null_elem_cex :
    generateJsonStructureTree (.arr (.cons .null .nil)) "" true =
        "Array[1]\n└── [0]: object" ∧
      strContainsSub (generateJsonStructureTree (.arr (.cons .null .nil)) "" true)
        "null" = false := by
  exact ⟨by decide, by decide⟩

/-- C8 amended: primitive leaves render their type names, `null` renders
as the literal `null` at the root and in object-field position,
`summarize([]) = "[]"`, `summarize(\x7b\x7d) = "\x7b\x7d"`,
`summarize([1,2,3])` contains `Array[3]` and an `[0]: number` entry —
but a `null` as an array's element 0 renders as `[0]: object`. -/
theorem generateJsonStructureTree_rendering :
    generateJsonStructureTree .null "" true = "null" ∧
    generateJsonStructureTree (.arr .nil) "" true = "[]" ∧
    generateJsonStructureTree (.obj .nil) "" true = "\x7b\x7d" ∧
    strContainsSub
      (generateJsonStructureTree (.arr (.cons (.num 1) (.cons (.num 2) (.cons (.num 3) .nil)))) "" true)
      "Array[3]" = true ∧
    strContainsSub
      (generateJsonStructureTree (.arr (.cons (.num 1) (.cons (.num 2) (.cons (.num 3) .nil)))) "" true)
      "[0]: number" = true ∧
    generateJsonStructureTree (.obj (.cons "k" .null .nil)) "" true = "└── k: null" ∧
    generateJsonStructureTree (.bool true) "" true = "boolean" ∧
    generateJsonStructureTree (.num 3) "" true = "number" ∧
    generateJsonStructureTree (.str "x") "" true = "string" ∧
    generateJsonStructureTree (.arr (.cons .null .nil)) "" true =
      "Array[1]\n└── [0]: object" := by
  refine ⟨by decide, by decide, by decide, by decide, by decide, by decide, by decide,
    by decide, by decide, by decide⟩

/-- C9: `formatFileSize` uses binary multiples with three bands —
below 1024 a plain `"{n} B"`, from 1024 up to (excluding) 1048576 a
one-decimal `"{a}.{b} KB"` whose digits are the rounding of `n/1024` to
tenths, and from 1048576 on a one-decimal `"{a}.{b} MB"` likewise for
`n/1048576`; with the spec's concrete examples. -/
theorem formatFileSize_bands (n : Nat) :
    (n < 1024 → formatFileSize n = toString n ++ " B") ∧
    (1024 ≤ n → n < 1048576 →
      ∃ a b, b < 10 ∧ a * 10 + b = (20 * n + 1024) / 2048 ∧
        formatFileSize n = toString a ++ "." ++ toString b ++ " KB") ∧
    (1048576 ≤ n →
      ∃ a b, b < 10 ∧ a * 10 + b = (20 * n + 1048576) / 2097152 ∧
        formatFileSize n = toString a ++ "." ++ toString b ++ " MB") ∧
    formatFileSize 500 = "500 B" ∧ formatFileSize 1024 = "1.0 KB" ∧
    formatFileSize 2560 = "2.5 KB" ∧ formatFileSize 1048576 = "1.0 MB" := by
  refine ⟨?_, ?_, ?_, by decide, by decide, by decide, by decide⟩
  · intro h
    simp [formatFileSize, h]
  · intro h1 h2
    refine ⟨((20 * n + 1024) / 2048) / 10, ((20 * n + 1024) / 2048) % 10,
      Nat.mod_lt _ (by omega), by omega, ?_⟩
    have hn1 : ¬ (n < 1024) := by omega
    simp [formatFileSize, hn1, h2, toFixed1, String.append_assoc]
  · intro h1
    refine ⟨((20 * n + 1048576) / 2097152) / 10, ((20 * n + 1048576) / 2097152) % 10,
      Nat.mod_lt _ (by omega), by omega, ?_⟩
    have hn1 : ¬ (n < 1024) := by omega
    have hn2 : ¬ (n < 1024 * 1024) := by omega
    simp [formatFileSize, hn1, hn2, toFixed1, String.append_assoc]

/-- C9 witness: the three bands applied at 500, 2560 and 1048576. -/
theorem formatFileSize_bands_witness :
    formatFileSize 500 = toString 500 ++ " B" ∧
    (∃ a b, b < 10 ∧ a * 10 + b = (20 * 2560 + 1024) / 2048 ∧
      formatFileSize 2560 = toString a ++ "." ++ toString b ++ " KB") ∧
    (∃ a b, b < 10 ∧ a * 10 + b = (20 * 1048576 + 1048576) / 2097152 ∧
      formatFileSize 1048576 = toString a ++ "." ++ toString b ++ " MB") :=
  ⟨(formatFileSize_bands 500).1 (by omega),
   (formatFileSize_bands 2560).2.1 (by omega) (by omega),
   (formatFileSize_bands 1048576).2.2.1 (by omega)⟩

/-- C2 counterexample: when the archive write fails (oracle `.error`),
`formatResponse` does not produce any rendered text at all — the error
propagates to the caller, so no structure/data sections and no inline
notice exist. -/
theorem formatResponse_archive_error_cex :
    formatResponse (.error "EACCES: permission denied, mkdir") 10
        (.obj (.cons "id" (.num 1) .nil)) (some exArchiveOptions)
        "2026-10-11T12:00:00.000Z"
      = .error "EACCES: permission denied, mkdir" := by
  decide

/-- C2 amended: for every input and options carrying an archive
directory, a directory-creation/write error is re-thrown by
`formatResponse` (there is no `try` around the `saveRawData` call on
line 264): the result is that error, not a rendered text. -/
theorem formatResponse_archive_error_propagates (e : String) (maxItems : Nat)
    (data : Json) (dir : String) (toolName : Option String)
    (params : Option (List (String × PValue))) (isoNow : String) :
    formatResponse (.error e) maxItems data
        (some { rawDataSaveDir := some dir, toolName := toolName, params := params })
        isoNow
      = .error e := by
  cases toolName <;> simp [formatResponse, saveRawData]

/-- C5 counterexample: on `{"a.b": [11 items]}` with threshold 10 the
limiter throws a `TypeError` (the rebuilt path `["a","b"]` reads the
missing property `a`, and the assignment on the resulting `undefined`
throws), so `limitItems` is not total. -/
theorem limitItems_dotted_key_throw_cex :
    limitItems 10 exDotKeyOnly =
      .error "TypeError: cannot read properties of undefined" := by
  decide

/-- C3 counterexample: on `{a: {b: 1}, "a.b": [7 × 11]}` with threshold
10, the located field is `"a.b"`, but the returned copy leaves that field
at its full 11 elements and instead rewrites the unrelated subtree at
`a.b` (the nested one): the located field is not replaced, and another
subtree differs from the input's. -/
theorem limitItems_dotted_key_cex :
    limitItems 10 exDotKeyClash =
      .ok { limited := .obj (.cons "a" (.obj (.cons "b" (.arr (JsonList.replicate 10 (.num 7))) .nil))
              (.cons "a.b" (.arr (JsonList.replicate 11 (.num 7))) .nil)),
            originalCount := 11, wasLimited := true, limitedField := some "a.b" } ∧
    getAtKeyPath
        (.obj (.cons "a" (.obj (.cons "b" (.arr (JsonList.replicate 10 (.num 7))) .nil))
          (.cons "a.b" (.arr (JsonList.replicate 11 (.num 7))) .nil)))
        ["a.b"] = some (.arr (JsonList.replicate 11 (.num 7))) ∧
    getAtKeyPath
        (.obj (.cons "a" (.obj (.cons "b" (.arr (JsonList.replicate 10 (.num 7))) .nil))
          (.cons "a.b" (.arr (JsonList.replicate 11 (.num 7))) .nil)))
        ["a"] ≠ getAtKeyPath exDotKeyClash ["a"] := by
  refine ⟨by decide, by decide, by decide⟩

/-- C7 counterexample: a parameter other than `raw_data_save_dir` whose
value is the string `"raw_data_save_dir"` puts that substring into the
derived filename. -/
theorem saveFilename_contains_value_cex :
    strContainsSub
      (saveFilename "test_tool" (some [("note", .pstr "raw_data_save_dir")])
        "2026-10-11T12:00:00.000Z")
      "raw_data_save_dir" = true := by
  decide

mutual
theorem find_none_of_noShallow : ∀ (N : Nat) (v : Json) (p : String),
    hasShallowLarge N v = false → findLargeArrayField N v p = none
  | N, .null, p, h => rfl
  | N, .bool _, p, h => rfl
  | N, .num _, p, h => rfl
  | N, .str _, p, h => rfl
  | N, .arr elems, p, h => by
    simp [hasShallowLarge] at h
    simp [findLargeArrayField, h]
  | N, .obj fields, p, h => by
    simp only [hasShallowLarge] at h
    simp only [findLargeArrayField]
    exact findInFields_none_of_noShallow N (.obj fields) fields p h

theorem findInFields_none_of_noShallow : ∀ (N : Nat) (parent : Json)
    (fields : JsonFields) (p : String),
    hasShallowLargeFields N fields = false → findInFields N parent fields p = none
  | N, parent, .nil, p, h => rfl
  | N, parent, .cons key v tl, p, h => by
    cases v with
    | arr elems =>
      simp only [hasShallowLargeFields, Bool.or_eq_false_iff,
        decide_eq_false_iff_not, not_lt] at h
      obtain ⟨h1, h2⟩ := h
      have htl := findInFields_none_of_noShallow N parent tl p h2
      have hng : ¬ (elems.length > N) := by omega
      simp [findInFields, hng, htl]
    | obj innerFields =>
      simp only [hasShallowLargeFields, Bool.or_eq_false_iff] at h
      obtain ⟨h1, h2⟩ := h
      have htl := findInFields_none_of_noShallow N parent tl p h2
      have hv : findLargeArrayField N (.obj innerFields)
          (if p = "" then key else p ++ "." ++ key) = none :=
        find_none_of_noShallow N (.obj innerFields) _ (by simpa [hasShallowLarge] using h1)
      simp [findInFields, hv, htl]
    | null =>
      simp only [hasShallowLargeFields, Bool.or_eq_false_iff] at h
      simpa [findInFields] using findInFields_none_of_noShallow N parent tl p h.2
    | bool b =>
      simp only [hasShallowLargeFields, Bool.or_eq_false_iff] at h
      simpa [findInFields] using findInFields_none_of_noShallow N parent tl p h.2
    | num n =>
      simp only [hasShallowLargeFields, Bool.or_eq_false_iff] at h
      simpa [findInFields] using findInFields_none_of_noShallow N parent tl p h.2
    | str s =>
      simp only [hasShallowLargeFields, Bool.or_eq_false_iff] at h
      simpa [findInFields] using findInFields_none_of_noShallow N parent tl p h.2
end

mutual
theorem shallow_imp_any : ∀ (N : Nat) (v : Json),
    hasShallowLarge N v = true → hasAnyLarge N v = true
  | N, .arr elems, h => by
    simp only [hasShallowLarge] at h
    simp [hasAnyLarge, h]
  | N, .obj fields, h => by
    simp only [hasShallowLarge] at h
    simp only [hasAnyLarge]
    exact shallowFields_imp_any N fields h

theorem shallowFields_imp_any : ∀ (N : Nat) (fields : JsonFields),
    hasShallowLargeFields N fields = true → hasAnyLargeFields N fields = true
  | N, .nil, h => by simp [hasShallowLargeFields] at h
  | N, .cons key v tl, h => by
    simp only [hasAnyLargeFields, Bool.or_eq_true]
    cases v with
    | arr elems =>
      simp only [hasShallowLargeFields, Bool.or_eq_true] at h
      rcases h with h1 | h2
      · left; simp only [hasAnyLarge, Bool.or_eq_true]; left; exact h1
      · right; exact shallowFields_imp_any N tl h2
    | obj innerFields =>
      simp only [hasShallowLargeFields, Bool.or_eq_true] at h
      rcases h with h1 | h2
      · left
        simp only [hasAnyLarge]
        exact shallowFields_imp_any N innerFields h1
      · right; exact shallowFields_imp_any N tl h2
    | null =>
      simp only [hasShallowLargeFields, Bool.or_eq_true, Bool.false_eq_true, false_or] at h
      right; exact shallowFields_imp_any N tl h
    | bool b =>
      simp only [hasShallowLargeFields, Bool.or_eq_true, Bool.false_eq_true, false_or] at h
      right; exact shallowFields_imp_any N tl h
    | num n =>
      simp only [hasShallowLargeFields, Bool.or_eq_true, Bool.false_eq_true, false_or] at h
      right; exact shallowFields_imp_any N tl h
    | str s =>
      simp only [hasShallowLargeFields, Bool.or_eq_true, Bool.false_eq_true, false_or] at h
      right; exact shallowFields_imp_any N tl h
end

/-- C6: (a) if every oversized array of `v` sits only inside an element
of some array — no object-field chain and no root array exceeds the
threshold — the locator finds nothing and the limiter returns the input
unlimited; (b) no match is returned for booleans, `null`, numbers,
strings or the empty array; (c) in particular nothing is found when no
array anywhere (array elements included) exceeds the threshold. -/
theorem findLargeArrayField_never_searches_arrays (N : Nat) (v : Json) :
    (hasShallowLarge N v = false →
      findLargeArrayField N v "" = none ∧
      limitItems N v =
        .ok { limited := v, originalCount := 0, wasLimited := false,
              limitedField := none }) ∧
    (∀ b : Bool, findLargeArrayField N (.bool b) "" = none) ∧
    findLargeArrayField N .null "" = none ∧
    (∀ i : Int, findLargeArrayField N (.num i) "" = none) ∧
    (∀ s : String, findLargeArrayField N (.str s) "" = none) ∧
    findLargeArrayField N (.arr .nil) "" = none ∧
    (hasAnyLarge N v = false → findLargeArrayField N v "" = none) := by
  have main : hasShallowLarge N v = false →
      findLargeArrayField N v "" = none ∧
      limitItems N v =
        .ok { limited := v, originalCount := 0, wasLimited := false,
              limitedField := none } := by
    intro h
    have hf := find_none_of_noShallow N v "" h
    refine ⟨hf, ?_⟩
    cases hfalsy : jsFalsy v <;> simp [limitItems, hfalsy, hf]
  refine ⟨main, fun b => rfl, rfl, fun i => rfl, fun s => rfl,
    by simp [findLargeArrayField, JsonList.length], ?_⟩
  intro h
  have hs : hasShallowLarge N v = false := by
    cases hsv : hasShallowLarge N v with
    | false => rfl
    | true => rw [shallow_imp_any N v hsv] at h; cases h
  exact (main hs).1

/-- C6 witness: `{a: [[1 × 15]]}` (oversized array only inside an array
element) yields no match and an unlimited result, and `{a: [1, 2]}`
(nothing oversized anywhere) yields no match, both at threshold 10. -/
theorem findLargeArrayField_never_searches_arrays_witness :
    (findLargeArrayField 10 exLargeInsideArray "" = none ∧
      limitItems 10 exLargeInsideArray =
        .ok { limited := exLargeInsideArray, originalCount := 0,
              wasLimited := false, limitedField := none }) ∧
    findLargeArrayField 10 exAllSmall "" = none :=
  ⟨(findLargeArrayField_never_searches_arrays 10 exLargeInsideArray).1 (by decide),
   (findLargeArrayField_never_searches_arrays 10 exAllSmall).2.2.2.2.2.2 (by decide)⟩

theorem startsWithChars_append : ∀ (pat xs ys : List Char),
    startsWithChars pat xs = true → startsWithChars pat (xs ++ ys) = true
  | [], xs, ys, _ => rfl
  | _ :: _, [], _, h => by cases h
  | p :: ps, c :: cs, ys, h => by
    simp only [startsWithChars, Bool.and_eq_true] at h
    simp only [List.cons_append, startsWithChars, Bool.and_eq_true]
    exact ⟨h.1, startsWithChars_append ps cs ys h.2⟩

theorem hasSubChars_append_left : ∀ (pat xs ys : List Char),
    hasSubChars pat xs = true → hasSubChars pat (xs ++ ys) = true
  | pat, [], ys, h => by
    cases pat with
    | nil =>
      cases ys with
      | nil => exact h
      | cons c cs => simp [hasSubChars, startsWithChars]
    | cons p ps => simp [hasSubChars, startsWithChars] at h
  | pat, c :: cs, ys, h => by
    simp only [hasSubChars, Bool.or_eq_true] at h
    simp only [List.cons_append, hasSubChars, Bool.or_eq_true]
    rcases h with h1 | h2
    · left
      have := startsWithChars_append pat (c :: cs) ys h1
      simpa using this
    · right; exact hasSubChars_append_left pat cs ys h2

theorem hasSubChars_append_right : ∀ (pat xs ys : List Char),
    hasSubChars pat ys = true → hasSubChars pat (xs ++ ys) = true
  | pat, [], ys, h => h
  | pat, c :: cs, ys, h => by
    simp only [List.cons_append, hasSubChars, Bool.or_eq_true]
    right; exact hasSubChars_append_right pat cs ys h

/-- C7 amended: archiving with `{featured: true, first: 10}` derives (for
every tool name and timestamp) a filename containing `featured=true` and
`first=10`; the parameter *named* `raw_data_save_dir` is excluded — the
params block is unchanged when all entries with that key are dropped
beforehand, and the repo test's input
`{featured: true, raw_data_save_dir: '/some/path'}` produces a filename
free of the substring — but a parameter *value* can still carry the
substring into the filename (see the counterexample). -/
theorem saveFilename_params (toolName isoNow : String)
    (params : List (String × PValue)) :
    strContainsSub
      (saveFilename toolName (some [("featured", .pbool true), ("first", .pnum 10)]) isoNow)
      "featured=true" = true ∧
    strContainsSub
      (saveFilename toolName (some [("featured", .pbool true), ("first", .pnum 10)]) isoNow)
      "first=10" = true ∧
    buildParamsStr (some params) =
      buildParamsStr (some (params.filter (fun kv => kv.1 != "raw_data_save_dir"))) ∧
    strContainsSub
      (saveFilename "test_tool"
        (some [("featured", .pbool true), ("raw_data_save_dir", .pstr "/some/path")])
        "2026-10-11T12:00:00.000Z")
      "raw_data_save_dir" = false := by
  have hbp : buildParamsStr (some [("featured", PValue.pbool true), ("first", PValue.pnum 10)]) =
      "_featured=true_first=10" := by decide
  have hd : (saveFilename toolName
        (some [("featured", PValue.pbool true), ("first", PValue.pnum 10)]) isoNow).data =
      toolName.data ++ (("_featured=true_first=10").data ++
        (("_").data ++ ((tsReplace isoNow).data ++ (".json").data))) := by
    simp [saveFilename, hbp, String.data_append]
  refine ⟨?_, ?_, ?_, by decide⟩
  · show hasSubChars ("featured=true").data _ = true
    rw [hd]
    exact hasSubChars_append_right _ _ _ (hasSubChars_append_left _ _ _ (by decide))
  · show hasSubChars ("first=10").data _ = true
    rw [hd]
    exact hasSubChars_append_right _ _ _ (hasSubChars_append_left _ _ _ (by decide))
  · simp only [buildParamsStr, List.filter_filter]
    have hpt : ∀ kv : String × PValue,
        ((kv.1 != "raw_data_save_dir" && kv.2 != PValue.pundef && kv.2 != PValue.pnull) &&
          (kv.1 != "raw_data_save_dir")) =
        (kv.1 != "raw_data_save_dir" && kv.2 != PValue.pundef && kv.2 != PValue.pnull) := by
      intro kv
      cases h1 : (kv.1 != "raw_data_save_dir") <;>
        cases h2 : (kv.2 != PValue.pundef) <;>
          cases h3 : (kv.2 != PValue.pnull) <;> simp [h1, h2, h3]
    rw [List.filter_congr (fun kv _ => hpt kv)]

theorem splitChars_ne_nil : ∀ (sep : Char) (cs : List Char), splitChars sep cs ≠ []
  | sep, [] => by simp [splitChars]
  | sep, c :: rest => by
    have ih := splitChars_ne_nil sep rest
    cases h : splitChars sep rest with
    | nil => exact absurd h ih
    | cons p ps =>
      simp only [splitChars, h]
      by_cases hc : c = sep <;> simp [hc]

theorem splitChars_no_sep : ∀ (sep : Char) (cs : List Char),
    (∀ c ∈ cs, c ≠ sep) → splitChars sep cs = [cs]
  | sep, [], _ => rfl
  | sep, c :: rest, h => by
    have ih := splitChars_no_sep sep rest (fun x hx => h x (List.mem_cons_of_mem c hx))
    have hc : c ≠ sep := h c (List.mem_cons_self c rest)
    simp [splitChars, ih, hc]

theorem splitChars_append_sep : ∀ (sep : Char) (as bs : List Char),
    splitChars sep (as ++ sep :: bs) = splitChars sep as ++ splitChars sep bs
  | sep, [], bs => by
    simp only [List.nil_append, splitChars]
    cases h : splitChars sep bs with
    | nil => exact absurd h (splitChars_ne_nil sep bs)
    | cons p ps => simp
  | sep, a :: as, bs => by
    have ih := splitChars_append_sep sep as bs
    cases h : splitChars sep as with
    | nil => exact absurd h (splitChars_ne_nil sep as)
    | cons p ps =>
      rw [List.cons_append, splitChars, ih, h]
      simp only [List.cons_append]
      by_cases ha : a = sep <;> simp [ha, splitChars, h]

theorem cleanKey_ne_empty {k : String} (h : cleanKey k = true) : k ≠ "" := by
  simp only [cleanKey, Bool.and_eq_true, bne_iff_ne] at h
  exact h.1

theorem cleanKey_no_dot {k : String} (h : cleanKey k = true) : ∀ c ∈ k.data, c ≠ '.' := by
  simp only [cleanKey, Bool.and_eq_true, decide_eq_true_eq] at h
  intro c hc he
  exact h.2 (he ▸ hc)

theorem string_eta (s : String) : String.mk s.data = s := rfl

theorem jsSplitDots_single {k : String} (hk : cleanKey k = true) :
    jsSplitDots k = [k] := by
  simp only [jsSplitDots, splitChars_no_sep '.' k.data (cleanKey_no_dot hk), List.map_cons,
    List.map_nil, string_eta]

theorem append_dot_data (p k : String) :
    (p ++ "." ++ k).data = p.data ++ '.' :: k.data := by
  simp [String.data_append]

theorem append_dot_ne_empty (p k : String) : p ++ "." ++ k ≠ "" := by
  intro h
  have : (p ++ "." ++ k).data = ("" : String).data := by rw [h]
  rw [append_dot_data] at this
  simp at this

theorem jsSplitDots_append_key (p k : String) (hk : cleanKey k = true) :
    jsSplitDots (p ++ "." ++ k) = jsSplitDots p ++ [k] := by
  simp only [jsSplitDots, append_dot_data, splitChars_append_sep,
    splitChars_no_sep '.' k.data (cleanKey_no_dot hk), List.map_append, List.map_cons,
    List.map_nil, string_eta]

theorem jsSplitDots_joinKeys : ∀ (ks : List String) (p : String),
    p ≠ "" → (∀ k ∈ ks, cleanKey k = true) →
    jsSplitDots (joinKeys p ks) = jsSplitDots p ++ ks
  | [], p, hp, _ => by simp [joinKeys]
  | k :: rest, p, hp, hks => by
    have hk := hks k (List.mem_cons_self k rest)
    simp only [joinKeys, if_neg hp]
    rw [jsSplitDots_joinKeys rest (p ++ "." ++ k) (append_dot_ne_empty p k)
      (fun x hx => hks x (List.mem_cons_of_mem k hx))]
    rw [jsSplitDots_append_key p k hk]
    simp

theorem jsSplitDots_joinKeys_root (ks : List String) (hne : ks ≠ [])
    (hks : ∀ k ∈ ks, cleanKey k = true) :
    jsSplitDots (joinKeys "" ks) = ks := by
  cases ks with
  | nil => exact absurd rfl hne
  | cons k rest =>
    have hk := hks k (List.mem_cons_self k rest)
    have : joinKeys "" (k :: rest) = joinKeys k rest := by simp [joinKeys]
    rw [this, ]
    cases rest with
    | nil => simpa [joinKeys] using jsSplitDots_single hk
    | cons k2 r2 =>
      rw [jsSplitDots_joinKeys (k2 :: r2) k (cleanKey_ne_empty hk)
        (fun x hx => hks x (List.mem_cons_of_mem k hx))]
      rw [jsSplitDots_single hk]
      simp

theorem splitLast_append : ∀ (front : List String) (last : String),
    splitLast (front ++ [last]) = some (front, last)
  | [], _ => rfl
  | f :: fs, last => by
    have ih := splitLast_append fs last
    cases fs with
    | nil => rfl
    | cons g gs =>
      simp only [List.cons_append] at ih ⊢
      rw [splitLast, ih]

theorem lookup_setField_self : ∀ (fs : JsonFields) (k : String) (x : Json),
    (fs.setField k x).lookup k = some x
  | .nil, k, x => by simp [JsonFields.setField, JsonFields.lookup]
  | .cons k' v' tl, k, x => by
    by_cases h : k' = k
    · simp [JsonFields.setField, JsonFields.lookup, h]
    · simp [JsonFields.setField, JsonFields.lookup, h, lookup_setField_self tl k x]

theorem lookup_setField_ne : ∀ (fs : JsonFields) (k k2 : String) (x : Json), k2 ≠ k →
    (fs.setField k x).lookup k2 = fs.lookup k2
  | .nil, k, k2, x, h => by
    simp only [JsonFields.setField, JsonFields.lookup]
    rw [if_neg (fun hc => h hc.symm)]
  | .cons k' v' tl, k, k2, x, h => by
    by_cases h1 : k' = k
    · subst h1
      have hne : ¬ (k' = k2) := fun hc => h (by rw [← hc])
      simp [JsonFields.setField, JsonFields.lookup, hne]
    · by_cases h2 : k' = k2
      · simp [JsonFields.setField, JsonFields.lookup, h1, h2, h]
      · simp [JsonFields.setField, JsonFields.lookup, h1, h2,
          lookup_setField_ne tl k k2 x h]

theorem hasEntry_mem_keys : ∀ (fs : JsonFields) (k : String) (v : Json),
    fs.hasEntry k v = true → fs.keys.contains k = true
  | .cons k' v' tl, k, v, h => by
    simp only [JsonFields.hasEntry, Bool.or_eq_true, Bool.and_eq_true,
      decide_eq_true_eq] at h
    simp only [JsonFields.keys, List.contains_cons, Bool.or_eq_true, beq_iff_eq]
    rcases h with ⟨h1, _⟩ | h2
    · left; exact h1.symm
    · right; exact hasEntry_mem_keys tl k v h2

theorem lookup_of_hasEntry : ∀ (fs : JsonFields) (k : String) (v : Json),
    distinctKeys fs.keys = true → fs.hasEntry k v = true → fs.lookup k = some v
  | .cons k' v' tl, k, v, hd, h => by
    simp only [JsonFields.keys, distinctKeys, Bool.and_eq_true, Bool.not_eq_true'] at hd
    simp only [JsonFields.hasEntry, Bool.or_eq_true, Bool.and_eq_true,
      decide_eq_true_eq] at h
    rcases h with ⟨h1, h2⟩ | h3
    · simp [JsonFields.lookup, h1, h2]
    · have hk : ¬ (k' = k) := by
        intro he
        have hm := hasEntry_mem_keys tl k v h3
        rw [← he, hd.1] at hm
        cases hm
      simp [JsonFields.lookup, hk, lookup_of_hasEntry tl k v hd.2 h3]

mutual
theorem find_obj_parent_isSome : ∀ (N : Nat) (fields : JsonFields) (p : String)
    (info : LargeArrayFieldResult),
    findLargeArrayField N (.obj fields) p = some info → info.parentObj.isSome = true
  | N, fields, p, info, h => by
    simp only [findLargeArrayField] at h
    exact findInFields_parent_isSome N (.obj fields) fields p info h

theorem findInFields_parent_isSome : ∀ (N : Nat) (parent : Json) (fields : JsonFields)
    (p : String) (info : LargeArrayFieldResult),
    findInFields N parent fields p = some info → info.parentObj.isSome = true
  | N, parent, .nil, p, info, h => by simp [findInFields] at h
  | N, parent, .cons key v tl, p, info, h => by
    cases v with
    | arr elems =>
      simp only [findInFields] at h
      by_cases hl : elems.length > N
      · rw [if_pos hl] at h
        cases h
        rfl
      · rw [if_neg hl] at h
        exact findInFields_parent_isSome N parent tl p info h
    | obj innerFields =>
      simp only [findInFields] at h
      cases hf : findLargeArrayField N (.obj innerFields)
          (if p = "" then key else p ++ "." ++ key) with
      | some r =>
        rw [hf] at h
        cases h
        exact find_obj_parent_isSome N innerFields _ info hf
      | none =>
        rw [hf] at h
        exact findInFields_parent_isSome N parent tl p info h
    | null =>
      simp only [findInFields] at h
      exact findInFields_parent_isSome N parent tl p info h
    | bool b =>
      simp only [findInFields] at h
      exact findInFields_parent_isSome N parent tl p info h
    | num n =>
      simp only [findInFields] at h
      exact findInFields_parent_isSome N parent tl p info h
    | str s =>
      simp only [findInFields] at h
      exact findInFields_parent_isSome N parent tl p info h
end

mutual
theorem findPath_spec : ∀ (N : Nat) (v : Json) (pathStr : String)
    (info : LargeArrayFieldResult),
    keysClean v = true →
    findLargeArrayField N v pathStr = some info →
    info.parentObj.isSome = true →
    ∃ front last,
      (∀ k ∈ front ++ [last], cleanKey k = true) ∧
      info.fieldPath = joinKeys pathStr (front ++ [last]) ∧
      ∀ newVal, jsMutateAtPath v front last newVal =
        .ok (setAtKeyPath v (front ++ [last]) newVal)
  | N, .null, p, info, _, h, _ => by simp [findLargeArrayField] at h
  | N, .bool b, p, info, _, h, _ => by simp [findLargeArrayField] at h
  | N, .num n, p, info, _, h, _ => by simp [findLargeArrayField] at h
  | N, .str s, p, info, _, h, _ => by simp [findLargeArrayField] at h
  | N, .arr elems, p, info, _, h, hsome => by
    simp only [findLargeArrayField] at h
    by_cases hl : elems.length > N
    · rw [if_pos hl] at h
      cases h
      simp at hsome
    · rw [if_neg hl] at h
      cases h
  | N, .obj fields, p, info, hclean, h, hsome => by
    simp only [findLargeArrayField] at h
    simp only [keysClean, Bool.and_eq_true] at hclean
    exact findInFields_spec N fields fields p info hclean.2
      (fun k w hw => lookup_of_hasEntry fields k w hclean.1 hw) h hsome

theorem findInFields_spec : ∀ (N : Nat) (full : JsonFields) (fields : JsonFields)
    (pathStr : String) (info : LargeArrayFieldResult),
    keysCleanFields fields = true →
    (∀ k w, fields.hasEntry k w = true → full.lookup k = some w) →
    findInFields N (.obj full) fields pathStr = some info →
    info.parentObj.isSome = true →
    ∃ front last,
      (∀ k ∈ front ++ [last], cleanKey k = true) ∧
      info.fieldPath = joinKeys pathStr (front ++ [last]) ∧
      ∀ newVal, jsMutateAtPath (.obj full) front last newVal =
        .ok (setAtKeyPath (.obj full) (front ++ [last]) newVal)
  | N, full, .nil, p, info, _, _, h, _ => by simp [findInFields] at h
  | N, full, .cons key v tl, p, info, hclean, hmem, h, hsome => by
    simp only [keysCleanFields, Bool.and_eq_true] at hclean
    obtain ⟨⟨hkey, hvclean⟩, htlclean⟩ := hclean
    have hmemtl : ∀ k w, tl.hasEntry k w = true → full.lookup k = some w := by
      intro k w hw
      apply hmem
      simp [JsonFields.hasEntry, hw]
    cases v with
    | arr elems =>
      simp only [findInFields] at h
      by_cases hl : elems.length > N
      · rw [if_pos hl] at h
        cases h
        refine ⟨[], key, ?_, rfl, ?_⟩
        · intro k hk
          simp only [List.nil_append, List.mem_singleton] at hk
          subst hk
          exact hkey
        · intro newVal
          simp [jsMutateAtPath, setAtKeyPath]
      · rw [if_neg hl] at h
        exact findInFields_spec N full tl p info htlclean hmemtl h hsome
    | obj innerFields =>
      simp only [findInFields] at h
      cases hf : findLargeArrayField N (.obj innerFields)
          (if p = "" then key else p ++ "." ++ key) with
      | none =>
        rw [hf] at h
        exact findInFields_spec N full tl p info htlclean hmemtl h hsome
      | some r =>
        rw [hf] at h
        cases h
        have hrsome := find_obj_parent_isSome N innerFields _ info hf
        obtain ⟨front', last', hclean', hpath', hmut'⟩ :=
          findPath_spec N (.obj innerFields) _ info hvclean hf hrsome
        refine ⟨key :: front', last', ?_, ?_, ?_⟩
        · intro k hk
          rcases List.mem_cons.mp hk with he | hm
          · subst he; exact hkey
          · exact hclean' k hm
        · rw [hpath']
          rfl
        · intro newVal
          have hlk : full.lookup key = some (.obj innerFields) := by
            apply hmem
            simp [JsonFields.hasEntry]
          obtain ⟨l0, ltl, hsplit⟩ : ∃ a bs, front' ++ [last'] = a :: bs := by
            cases front' with
            | nil => exact ⟨last', [], rfl⟩
            | cons a bs => exact ⟨a, bs ++ [last'], rfl⟩
          rw [List.cons_append, hsplit]
          simp only [jsMutateAtPath, setAtKeyPath, hlk, hmut' newVal]
          rw [← hsplit]
    | null =>
      simp only [findInFields] at h
      exact findInFields_spec N full tl p info htlclean hmemtl h hsome
    | bool b =>
      simp only [findInFields] at h
      exact findInFields_spec N full tl p info htlclean hmemtl h hsome
    | num n =>
      simp only [findInFields] at h
      exact findInFields_spec N full tl p info htlclean hmemtl h hsome
    | str s =>
      simp only [findInFields] at h
      exact findInFields_spec N full tl p info htlclean hmemtl h hsome
end

theorem isLead_cons_iff (k : String) (a b : List String) :
    isLead (k :: a) (k :: b) ↔ isLead a b := by
  constructor
  · rintro ⟨t, ht⟩
    rw [List.cons_append] at ht
    exact ⟨t, by injection ht⟩
  · rintro ⟨t, ht⟩
    exact ⟨t, by rw [List.cons_append, ht]⟩

theorem getAtKeyPath_setAtKeyPath_off : ∀ (ks : List String) (v nv : Json)
    (ks2 : List String),
    ¬ isLead ks2 ks → ¬ isLead ks ks2 →
    getAtKeyPath (setAtKeyPath v ks nv) ks2 = getAtKeyPath v ks2
  | [], v, nv, ks2, _, h2 => absurd ⟨ks2, rfl⟩ h2
  | k :: ks', v, nv, ks2, h1, h2 => by
    cases v with
    | obj fields =>
      cases ks' with
      | nil =>
        cases ks2 with
        | nil => exact absurd ⟨[k], rfl⟩ h1
        | cons k2 ks2' =>
          by_cases hk : k2 = k
          · subst hk
            exact absurd ⟨ks2', rfl⟩ h2
          · simp only [setAtKeyPath, getAtKeyPath, lookup_setField_ne fields k k2 nv hk]
      | cons c rest =>
        cases hlk : fields.lookup k with
        | none => simp [setAtKeyPath, hlk]
        | some child =>
          cases ks2 with
          | nil => exact absurd ⟨k :: c :: rest, rfl⟩ h1
          | cons k2 ks2' =>
            by_cases hk : k2 = k
            · subst hk
              have h1' : ¬ isLead ks2' (c :: rest) := fun hc =>
                h1 ((isLead_cons_iff k2 ks2' (c :: rest)).mpr hc)
              have h2' : ¬ isLead (c :: rest) ks2' := fun hc =>
                h2 ((isLead_cons_iff k2 (c :: rest) ks2').mpr hc)
              simp only [setAtKeyPath, hlk, getAtKeyPath, lookup_setField_self]
              exact getAtKeyPath_setAtKeyPath_off (c :: rest) child nv ks2' h1' h2'
            · simp only [setAtKeyPath, hlk, getAtKeyPath,
                lookup_setField_ne fields k k2 _ hk]
    | null => cases ks' <;> simp [setAtKeyPath]
    | bool b => cases ks' <;> simp [setAtKeyPath]
    | num n => cases ks' <;> simp [setAtKeyPath]
    | str s => cases ks' <;> simp [setAtKeyPath]
    | arr elems => cases ks' <;> simp [setAtKeyPath]

/-- The non-root branch of `limitItems` on inputs whose object keys are
distinct, nonempty and dot-free: the result is exactly the input with the
located field replaced by its first `N` elements (`setAtKeyPath`), and
every subtree off the located path is untouched. -/
theorem limitItems_nonroot_spec (N : Nat) (data : Json)
    (info : LargeArrayFieldResult) (par : Json)
    (hclean : keysClean data = true)
    (hfind : findLargeArrayField N data "" = some info)
    (hpar : info.parentObj = some par) :
    ∃ ks, ks ≠ [] ∧ info.fieldPath = joinKeys "" ks ∧
      limitItems N data =
        .ok { limited := setAtKeyPath data ks (.arr (info.array.take N)),
              originalCount := info.array.length, wasLimited := true,
              limitedField := some info.fieldPath } ∧
      (∀ ks2, ¬ isLead ks2 ks → ¬ isLead ks ks2 →
        getAtKeyPath (setAtKeyPath data ks (.arr (info.array.take N))) ks2 =
          getAtKeyPath data ks2) := by
  have hobj : ∃ fs, data = .obj fs := by
    cases data with
    | obj fs => exact ⟨fs, rfl⟩
    | null => simp [findLargeArrayField] at hfind
    | bool b => simp [findLargeArrayField] at hfind
    | num n => simp [findLargeArrayField] at hfind
    | str s => simp [findLargeArrayField] at hfind
    | arr elems =>
      simp only [findLargeArrayField] at hfind
      by_cases hl : elems.length > N
      · rw [if_pos hl] at hfind
        cases hfind
        simp at hpar
      · rw [if_neg hl] at hfind
        cases hfind
  obtain ⟨fs, rfl⟩ := hobj
  obtain ⟨front, last, hcl, hpath, hmut⟩ :=
    findPath_spec N (.obj fs) "" info hclean hfind (by rw [hpar]; rfl)
  refine ⟨front ++ [last], by simp, hpath, ?_, ?_⟩
  · have hsplit : jsSplitDots info.fieldPath = front ++ [last] := by
      rw [hpath]
      exact jsSplitDots_joinKeys_root (front ++ [last]) (by simp) hcl
    simp only [limitItems, jsFalsy, hfind, hpar, jsonDeepClone, hsplit,
      splitLast_append, hmut, Bool.false_eq_true, if_false]
  · intro ks2 ha hb
    exact getAtKeyPath_setAtKeyPath_off (front ++ [last]) (.obj fs) _ ks2 ha hb

/-- C3 amended: whenever the located oversized array is a field inside an
object (non-root match) and the input's object keys are distinct,
nonempty and dot-free, `limitItems` returns a copy that equals the input
with exactly that one field replaced by the source array's first `N`
elements (`setAtKeyPath` along the located key path), with
`originalCount` the array's length and `limitedField` the dotted path;
every subtree off the located path is equal, by value, to the input's.
(In this pure embedding the input value itself is never modified; the
dotted-key counterexample shows why the clean-key restriction is
required.) -/
theorem limitItems_nonroot_replaces_one_field (N : Nat) (data : Json)
    (info : LargeArrayFieldResult) (par : Json)
    (hclean : keysClean data = true)
    (hfind : findLargeArrayField N data "" = some info)
    (hpar : info.parentObj = some par) :
    ∃ ks, ks ≠ [] ∧ info.fieldPath = joinKeys "" ks ∧
      limitItems N data =
        .ok { limited := setAtKeyPath data ks (.arr (info.array.take N)),
              originalCount := info.array.length, wasLimited := true,
              limitedField := some info.fieldPath } ∧
      (∀ ks2, ¬ isLead ks2 ks → ¬ isLead ks ks2 →
        getAtKeyPath (setAtKeyPath data ks (.arr (info.array.take N))) ks2 =
          getAtKeyPath data ks2) :=
  limitItems_nonroot_spec N data info par hclean hfind hpar

/-- C3 witness: the clean nested input `{a: {b: [1 × 11]}}` at threshold
10. -/
theorem limitItems_nonroot_replaces_one_field_witness :
    keysClean exNestedLarge = true ∧
    (∃ ks, ks ≠ [] ∧ ("a.b" : String) = joinKeys "" ks ∧
      limitItems 10 exNestedLarge =
        .ok { limited := setAtKeyPath exNestedLarge ks
                (.arr ((JsonList.replicate 11 (.num 1)).take 10)),
              originalCount := (JsonList.replicate 11 (Json.num 1)).length,
              wasLimited := true, limitedField := some "a.b" } ∧
      (∀ ks2, ¬ isLead ks2 ks → ¬ isLead ks ks2 →
        getAtKeyPath (setAtKeyPath exNestedLarge ks
            (.arr ((JsonList.replicate 11 (.num 1)).take 10))) ks2 =
          getAtKeyPath exNestedLarge ks2)) :=
  ⟨by decide,
   limitItems_nonroot_replaces_one_field 10 exNestedLarge
     { fieldPath := "a.b", array := JsonList.replicate 11 (.num 1),
       parentObj := some (.obj (.cons "b" (.arr (JsonList.replicate 11 (.num 1))) .nil)),
       fieldKey := "b" }
     (.obj (.cons "b" (.arr (JsonList.replicate 11 (.num 1))) .nil))
     (by decide) (by decide) rfl⟩

/-- C5 amended: `limitItems` returns a `LimitItemsResult` without
throwing on every input whose object keys (along object descent) are
distinct, nonempty and dot-free — real JS objects always satisfy
distinctness, so the substantive restriction is the absence of `.` in
keys (and of empty keys), which the counterexample shows to be
necessary. -/
theorem limitItems_total_on_clean_keys (N : Nat) (data : Json)
    (hclean : keysClean data = true) :
    ∃ r, limitItems N data = .ok r := by
  cases hf : jsFalsy data with
  | true =>
    exact ⟨{ limited := data, originalCount := 0, wasLimited := false,
             limitedField := none }, by simp [limitItems, hf]⟩
  | false =>
    cases hfind : findLargeArrayField N data "" with
    | none =>
      exact ⟨{ limited := data, originalCount := 0, wasLimited := false,
               limitedField := none }, by simp [limitItems, hf, hfind]⟩
    | some info =>
      cases hpar : info.parentObj with
      | none =>
        exact ⟨{ limited := jsonSliceRoot data N, originalCount := info.array.length,
                 wasLimited := true, limitedField := some info.fieldPath },
          by simp [limitItems, hf, hfind, hpar]⟩
      | some par =>
        obtain ⟨ks, _, _, hlim, _⟩ :=
          limitItems_nonroot_spec N data info par hclean hfind hpar
        exact ⟨_, hlim⟩

/-- C5 witness: the clean input `{edges: [1 × 12]}` at threshold 10. -/
theorem limitItems_total_on_clean_keys_witness :
    keysClean exEdges = true ∧ ∃ r, limitItems 10 exEdges = .ok r :=
  ⟨by decide, limitItems_total_on_clean_keys 10 exEdges (by decide)⟩

theorem digitChar_facts (d : Nat) (hd : d < 10) :
    isDigitChar (Char.ofNat (48 + d)) = true ∧ (Char.ofNat (48 + d)).toNat - 48 = d := by
  interval_cases d <;> exact ⟨by decide, by decide⟩

theorem natToChars_eq_lt {n : Nat} (h : n < 10) : natToChars n = [Char.ofNat (48 + n)] := by
  rw [natToChars]
  simp [h]

theorem natToChars_eq_ge {n : Nat} (h : ¬ n < 10) :
    natToChars n = natToChars (n / 10) ++ [Char.ofNat (48 + n % 10)] := by
  conv_lhs => rw [natToChars]
  simp [h]

theorem natToChars_head_digit (n : Nat) :
    ∃ c cs, natToChars n = c :: cs ∧ isDigitChar c = true := by
  induction n using Nat.strong_induction_on with
  | _ n ih =>
    by_cases h : n < 10
    · exact ⟨_, _, natToChars_eq_lt h, (digitChar_facts n h).1⟩
    · obtain ⟨c, cs, heq, hdig⟩ := ih (n / 10) (Nat.div_lt_self (by omega) (by omega))
      refine ⟨c, cs ++ [Char.ofNat (48 + n % 10)], ?_, hdig⟩
      rw [natToChars_eq_ge h, heq]
      rfl

theorem parseDigits_no_digit (acc : Nat) (rest : List Char)
    (h : ∀ d, rest.head? = some d → isDigitChar d = false) :
    parseDigits acc rest = (acc, rest) := by
  cases rest with
  | nil => rfl
  | cons c cs => simp [parseDigits, h c rfl]

theorem parseDigits_natToChars (n : Nat) : ∀ (acc : Nat) (rest : List Char),
    parseDigits acc (natToChars n ++ rest) =
      parseDigits (acc * 10 ^ (natToChars n).length + n) rest := by
  induction n using Nat.strong_induction_on with
  | _ n ih =>
    intro acc rest
    by_cases h : n < 10
    · rw [natToChars_eq_lt h]
      obtain ⟨hdig, hval⟩ := digitChar_facts n h
      simp [parseDigits, hdig, hval]
    · rw [natToChars_eq_ge h, List.append_assoc,
        ih (n / 10) (Nat.div_lt_self (by omega) (by omega))]
      obtain ⟨hdig, hval⟩ := digitChar_facts (n % 10) (Nat.mod_lt _ (by omega))
      simp only [List.singleton_append, parseDigits, hdig, if_true, hval]
      congr 1
      have hdm : 10 * (n / 10) + n % 10 = n := Nat.div_add_mod n 10
      rw [List.length_append, List.length_singleton, pow_succ]
      calc (acc * 10 ^ (natToChars (n / 10)).length + n / 10) * 10 + n % 10
          = acc * (10 ^ (natToChars (n / 10)).length * 10) + (10 * (n / 10) + n % 10) := by
            ring
        _ = acc * (10 ^ (natToChars (n / 10)).length * 10) + n := by rw [hdm]

theorem intToChars_head (i : Int) :
    ∃ c cs, intToChars i = c :: cs ∧ (isDigitChar c = true ∨ c = '-') := by
  by_cases h : i < 0
  · exact ⟨'-', natToChars i.natAbs, by simp [intToChars, h], Or.inr rfl⟩
  · obtain ⟨c, cs, heq, hd⟩ := natToChars_head_digit i.natAbs
    exact ⟨c, cs, by simp [intToChars, h, heq], Or.inl hd⟩

theorem digit_ne_minus {c : Char} (h : isDigitChar c = true) : c ≠ '-' := by
  intro he
  subst he
  simp [isDigitChar] at h

theorem parseNum_intToChars (i : Int) (rest : List Char)
    (hrest : ∀ d, rest.head? = some d → isDigitChar d = false) :
    parseNum (intToChars i ++ rest) = some (i, rest) := by
  obtain ⟨c, cs, heq, hdig⟩ := natToChars_head_digit i.natAbs
  have hparse : parseDigits 0 (natToChars i.natAbs ++ rest) = (i.natAbs, rest) := by
    rw [parseDigits_natToChars, parseDigits_no_digit _ _ hrest]
    simp
  by_cases h : i < 0
  · rw [show intToChars i = '-' :: natToChars i.natAbs by simp [intToChars, h]]
    rw [List.cons_append, heq, List.cons_append]
    simp only [parseNum, if_pos rfl, hdig, if_true]
    rw [← List.cons_append, ← heq, hparse]
    have : -(i.natAbs : Int) = i := by omega
    rw [this]
  · rw [show intToChars i = natToChars i.natAbs by simp [intToChars, h]]
    rw [heq, List.cons_append]
    simp only [parseNum, if_neg (digit_ne_minus hdig), hdig, if_true]
    rw [← List.cons_append, ← heq, hparse]
    have : (i.natAbs : Int) = i := by omega
    rw [this]

theorem hexVal_hexDigitChar (d : Nat) (h : d < 16) : hexVal (hexDigitChar d) = some d := by
  interval_cases d <;> decide

theorem parseStringBody_quote : ∀ (s rest : List Char),
    parseStringBody ((s.map escapeChar).flatten ++ '"' :: rest) = some (s, rest)
  | [], rest => by
    rw [parseStringBody.eq_def]
    simp
  | c :: cs, rest => by
    have ih := parseStringBody_quote cs rest
    simp only [List.map_cons, List.flatten_cons, List.append_assoc]
    by_cases h1 : c = '"'
    · subst h1
      rw [show escapeChar '"' = ['\\', '"'] from rfl, List.cons_append, List.cons_append,
        parseStringBody.eq_def]
      simp [unescapeChar, ih]
    · by_cases h2 : c = '\\'
      · subst h2
        rw [show escapeChar '\\' = ['\\', '\\'] from rfl, List.cons_append, List.cons_append,
          parseStringBody.eq_def]
        simp [unescapeChar, ih]
      · by_cases h3 : c = '\n'
        · subst h3
          rw [show escapeChar '\n' = ['\\', 'n'] from rfl, List.cons_append, List.cons_append,
            parseStringBody.eq_def]
          simp [unescapeChar, ih]
        · by_cases h4 : c = '\r'
          · subst h4
            rw [show escapeChar '\r' = ['\\', 'r'] from rfl, List.cons_append, List.cons_append,
              parseStringBody.eq_def]
            simp [unescapeChar, ih]
          · by_cases h5 : c = '\t'
            · subst h5
              rw [show escapeChar '\t' = ['\\', 't'] from rfl, List.cons_append, List.cons_append,
                parseStringBody.eq_def]
              simp [unescapeChar, ih]
            · by_cases h6 : c.toNat = 8
              · rw [show escapeChar c = ['\\', 'b'] by
                  simp [escapeChar, h1, h2, h3, h4, h5, h6]]
                have hc : Char.ofNat 8 = c := by rw [← h6, Char.ofNat_toNat]
                rw [List.cons_append, List.cons_append, parseStringBody.eq_def]
                simp [unescapeChar, ih]
                exact hc
              · by_cases h7 : c.toNat = 12
                · rw [show escapeChar c = ['\\', 'f'] by
                    simp [escapeChar, h1, h2, h3, h4, h5, h6, h7]]
                  have hc : Char.ofNat 12 = c := by rw [← h7, Char.ofNat_toNat]
                  rw [List.cons_append, List.cons_append, parseStringBody.eq_def]
                  simp [unescapeChar, ih]
                  exact hc
                · by_cases h8 : c.toNat < 32
                  · rw [show escapeChar c =
                        ['\\', 'u', '0', '0', hexDigitChar (c.toNat / 16),
                          hexDigitChar (c.toNat % 16)] by
                      simp [escapeChar, h1, h2, h3, h4, h5, h6, h7, h8]]
                    have hv0 : hexVal '0' = some 0 := by decide
                    have hv1 : hexVal (hexDigitChar (c.toNat / 16)) = some (c.toNat / 16) :=
                      hexVal_hexDigitChar _ (by omega)
                    have hv2 : hexVal (hexDigitChar (c.toNat % 16)) = some (c.toNat % 16) :=
                      hexVal_hexDigitChar _ (Nat.mod_lt _ (by omega))
                    have hval : c.toNat / 16 * 16 + c.toNat % 16 = c.toNat := by omega
                    simp [parseStringBody, hv0, hv1, hv2, ih]
                    rw [hval, Char.ofNat_toNat]
                  · rw [show escapeChar c = [c] by
                      simp [escapeChar, h1, h2, h3, h4, h5, h6, h7, h8]]
                    rw [List.cons_append, parseStringBody.eq_def]
                    simp [h1, h2, ih]

theorem skipWs_not_ws {c : Char} (h : isWsChar c = false) (cs : List Char) :
    skipWs (c :: cs) = c :: cs := by
  simp [skipWs, h]

theorem skipWs_replicate_space (n : Nat) (xs : List Char) :
    skipWs (List.replicate n ' ' ++ xs) = skipWs xs := by
  induction n with
  | zero => rfl
  | succ m ih => simpa [List.replicate_succ, skipWs, isWsChar] using ih

theorem skipWs_indent (lvl : Nat) (xs : List Char) :
    skipWs (indentChars lvl ++ xs) = skipWs xs :=
  skipWs_replicate_space (2 * lvl) xs

theorem skipWs_nl (xs : List Char) : skipWs ('\n' :: xs) = skipWs xs := by
  simp [skipWs, isWsChar]

theorem skipWs_skipWs (xs : List Char) : skipWs (skipWs xs) = skipWs xs := by
  induction xs with
  | nil => rfl
  | cons c cs ih =>
    cases h : isWsChar c with
    | true => simpa [skipWs, h] using ih
    | false => simp [skipWs, h]

theorem parseValue_congr (fuel : Nat) (x y : List Char) (h : skipWs x = skipWs y) :
    parseValue fuel x = parseValue fuel y := by
  cases fuel with
  | zero => rfl
  | succ f => simp only [parseValue, h]

theorem parseArrayItems_congr (fuel : Nat) (x y : List Char) (acc : JsonList)
    (h : skipWs x = skipWs y) :
    parseArrayItems fuel x acc = parseArrayItems fuel y acc := by
  cases fuel with
  | zero => rfl
  | succ f => simp only [parseArrayItems, parseValue_congr f x y h]

theorem parseObjFields_congr (fuel : Nat) (x y : List Char) (acc : JsonFields)
    (h : skipWs x = skipWs y) :
    parseObjFields fuel x acc = parseObjFields fuel y acc := by
  cases fuel with
  | zero => rfl
  | succ f => simp only [parseObjFields, h]

theorem stringifyAt_head_facts : ∀ (lvl : Nat) (v : Json),
    ∃ c cs, stringifyAt lvl v = c :: cs ∧ isWsChar c = false ∧
      c ≠ ']' ∧ c ≠ '\x7d' ∧ c ≠ ',' := by
  intro lvl v
  cases v with
  | null => exact ⟨'n', _, rfl, by decide, by decide, by decide, by decide⟩
  | bool b =>
    cases b with
    | true => exact ⟨'t', _, rfl, by decide, by decide, by decide, by decide⟩
    | false => exact ⟨'f', _, rfl, by decide, by decide, by decide, by decide⟩
  | num i =>
    obtain ⟨c, cs, heq, hd⟩ := intToChars_head i
    refine ⟨c, cs, by simpa [stringifyAt] using heq, ?_, ?_, ?_, ?_⟩
    · rcases hd with hd | hd
      · cases hw : isWsChar c with
        | false => rfl
        | true =>
          exfalso
          simp only [isWsChar, Bool.or_eq_true, decide_eq_true_eq] at hw
          rcases hw with ((h | h) | h) | h <;> (subst h; simp [isDigitChar] at hd)
      · subst hd; decide
    · rcases hd with hd | hd
      · intro he; subst he; simp [isDigitChar] at hd
      · subst hd; decide
    · rcases hd with hd | hd
      · intro he; subst he; simp [isDigitChar] at hd
      · subst hd; decide
    · rcases hd with hd | hd
      · intro he; subst he; simp [isDigitChar] at hd
      · subst hd; decide
  | str s => exact ⟨'"', _, rfl, by decide, by decide, by decide, by decide⟩
  | arr elems =>
    cases elems with
    | nil => exact ⟨'[', _, rfl, by decide, by decide, by decide, by decide⟩
    | cons e es => exact ⟨'[', _, rfl, by decide, by decide, by decide, by decide⟩
  | obj fields =>
    cases fields with
    | nil => exact ⟨'\x7b', _, rfl, by decide, by decide, by decide, by decide⟩
    | cons k v fs => exact ⟨'\x7b', _, rfl, by decide, by decide, by decide, by decide⟩

theorem jweight_pos (v : Json) : 1 ≤ jweight v := by
  cases v <;> simp [jweight]

theorem JsonList.append_nil_left (x : JsonList) : JsonList.nil.append x = x := rfl

theorem jsonList_append_assoc : ∀ (a b c : JsonList),
    (a.append b).append c = a.append (b.append c)
  | .nil, _, _ => rfl
  | .cons x xs, b, c => by simp [JsonList.append, jsonList_append_assoc xs b c]

theorem jsonFields_append_assoc : ∀ (a b c : JsonFields),
    (a.append b).append c = a.append (b.append c)
  | .nil, _, _ => rfl
  | .cons k v xs, b, c => by simp [JsonFields.append, jsonFields_append_assoc xs b c]

theorem head_not_digit_cons {c : Char} (h : isDigitChar c = false) (X : List Char) :
    ∀ d, (c :: X).head? = some d → isDigitChar d = false := by
  intro d hd
  simp only [List.head?, Option.some.injEq] at hd
  rw [← hd]
  exact h

theorem stringifyItems_cons_decomp (lvl : Nat) (e : Json) (es : JsonList) :
    ∃ T, stringifyItems lvl (.cons e es) = indentChars lvl ++ (stringifyAt lvl e ++ T) := by
  cases es with
  | nil => exact ⟨[], by simp [stringifyItems]⟩
  | cons e2 es2 =>
    exact ⟨',' :: '\n' :: stringifyItems lvl (.cons e2 es2), by simp [stringifyItems]⟩

theorem stringifyFields_cons_decomp (lvl : Nat) (k : String) (v : Json) (fs : JsonFields) :
    ∃ T, stringifyFields lvl (.cons k v fs) = indentChars lvl ++ ('"' :: T) := by
  cases fs with
  | nil =>
    exact ⟨(k.data.map escapeChar).flatten ++ '"' :: ':' :: ' ' :: stringifyAt lvl v,
      by simp [stringifyFields, quoteChars]⟩
  | cons k2 v2 fs2 =>
    exact ⟨(k.data.map escapeChar).flatten ++ '"' :: ':' :: ' ' ::
        (stringifyAt lvl v ++ ',' :: '\n' :: stringifyFields lvl (.cons k2 v2 fs2)),
      by simp [stringifyFields, quoteChars]⟩

theorem parse_stringify_trio : ∀ fuel : Nat,
    (∀ (v : Json) (lvl : Nat) (rest : List Char),
      jweight v ≤ fuel →
      (∀ d, rest.head? = some d → isDigitChar d = false) →
      parseValue fuel (stringifyAt lvl v ++ rest) = some (v, rest)) ∧
    (∀ (elems : JsonList) (lvl : Nat) (acc : JsonList) (rest : List Char),
      elems ≠ .nil → jweightList elems ≤ fuel →
      parseArrayItems fuel
        (stringifyItems (lvl + 1) elems ++ '\n' :: (indentChars lvl ++ ']' :: rest)) acc
        = some (.arr (acc.append elems), rest)) ∧
    (∀ (fields : JsonFields) (lvl : Nat) (acc : JsonFields) (rest : List Char),
      fields ≠ .nil → jweightFields fields ≤ fuel →
      parseObjFields fuel
        (stringifyFields (lvl + 1) fields ++ '\n' :: (indentChars lvl ++ '\x7d' :: rest)) acc
        = some (.obj (acc.append fields), rest)) := by
  intro fuel
  induction fuel with
  | zero =>
    refine ⟨?_, ?_, ?_⟩
    · intro v lvl rest hw _
      have := jweight_pos v
      omega
    · intro elems lvl acc rest hne hw
      cases elems with
      | nil => exact absurd rfl hne
      | cons e es => simp [jweightList] at hw
    · intro fields lvl acc rest hne hw
      cases fields with
      | nil => exact absurd rfl hne
      | cons k v fs => simp [jweightFields] at hw
  | succ fuel ih =>
    obtain ⟨IH1, IH2, IH3⟩ := ih
    refine ⟨?_, ?_, ?_⟩
    · intro v lvl rest hw hrest
      cases v with
      | null => simp [stringifyAt, parseValue, skipWs, isWsChar, expectChars]
      | bool b =>
        cases b with
        | true => simp [stringifyAt, parseValue, skipWs, isWsChar, expectChars]
        | false => simp [stringifyAt, parseValue, skipWs, isWsChar, expectChars]
      | num i =>
        obtain ⟨c, cs, heq, hd⟩ := intToChars_head i
        have hws : isWsChar c = false := by
          rcases hd with hd | hd
          · cases hw2 : isWsChar c with
            | false => rfl
            | true =>
              exfalso
              simp only [isWsChar, Bool.or_eq_true, decide_eq_true_eq] at hw2
              rcases hw2 with ((h | h) | h) | h <;> (subst h; simp [isDigitChar] at hd)
          · subst hd; decide
        have hne : c ≠ 'n' ∧ c ≠ 't' ∧ c ≠ 'f' ∧ c ≠ '"' ∧ c ≠ '[' ∧ c ≠ '\x7b' := by
          rcases hd with hd | hd
          · refine ⟨?_, ?_, ?_, ?_, ?_, ?_⟩ <;> (intro he; subst he; simp [isDigitChar] at hd)
          · subst hd
            exact ⟨by decide, by decide, by decide, by decide, by decide, by decide⟩
        rw [show stringifyAt lvl (.num i) = intToChars i from rfl, heq, List.cons_append]
        simp only [parseValue]
        rw [skipWs_not_ws hws]
        simp only []
        rw [if_neg hne.1, if_neg hne.2.1, if_neg hne.2.2.1,
          if_neg hne.2.2.2.1, if_neg hne.2.2.2.2.1, if_neg hne.2.2.2.2.2]
        rw [← List.cons_append, ← heq, parseNum_intToChars i rest hrest]
      | str s =>
        rw [show stringifyAt lvl (.str s) = quoteChars s.data from rfl]
        rw [show quoteChars s.data ++ rest =
          '"' :: ((s.data.map escapeChar).flatten ++ '"' :: rest) by simp [quoteChars]]
        simp only [parseValue]
        rw [skipWs_not_ws (by decide)]
        simp only []
        rw [if_pos trivial]
        rw [parseStringBody_quote s.data rest]
        simp [string_eta]
      | arr elems =>
        cases elems with
        | nil => simp [stringifyAt, parseValue, skipWs, isWsChar]
        | cons e es =>
          have hwle : jweightList (JsonList.cons e es) ≤ fuel := by
            simp only [jweight] at hw
            omega
          obtain ⟨c, cs, hec, hwsc, hbr1, hbr2, hcomma⟩ := stringifyAt_head_facts (lvl + 1) e
          obtain ⟨T, hT⟩ := stringifyItems_cons_decomp (lvl + 1) e es
          rw [show stringifyAt lvl (.arr (.cons e es)) ++ rest =
            '[' :: '\n' :: (stringifyItems (lvl + 1) (.cons e es) ++
              '\n' :: (indentChars lvl ++ ']' :: rest)) by simp [stringifyAt]]
          simp only [parseValue]
          rw [skipWs_not_ws (by decide)]
          simp only []
          rw [if_neg (by decide), if_neg (by decide), if_neg (by decide), if_neg (by decide)]
          rw [show skipWs ('\n' :: (stringifyItems (lvl + 1) (.cons e es) ++
              '\n' :: (indentChars lvl ++ ']' :: rest))) =
              c :: (cs ++ (T ++ '\n' :: (indentChars lvl ++ ']' :: rest))) by
            rw [skipWs_nl, hT, List.append_assoc, skipWs_indent, List.append_assoc, hec,
              List.cons_append]
            exact skipWs_not_ws hwsc _]
          simp only []
          rw [if_neg hbr1]
          rw [show parseArrayItems fuel
              (c :: (cs ++ (T ++ '\n' :: (indentChars lvl ++ ']' :: rest)))) .nil =
              parseArrayItems fuel (stringifyItems (lvl + 1) (.cons e es) ++
                '\n' :: (indentChars lvl ++ ']' :: rest)) .nil by
            apply parseArrayItems_congr
            rw [skipWs_not_ws hwsc, hT, List.append_assoc, skipWs_indent, List.append_assoc,
              hec, List.cons_append, skipWs_not_ws hwsc]]
          rw [IH2 (.cons e es) lvl .nil rest (by intro hx; cases hx) hwle]
          rw [if_pos trivial]
          rfl
      | obj fields =>
        cases fields with
        | nil => simp [stringifyAt, parseValue, skipWs, isWsChar]
        | cons k v fs =>
          have hwle : jweightFields (JsonFields.cons k v fs) ≤ fuel := by
            simp only [jweight] at hw
            omega
          obtain ⟨T, hT⟩ := stringifyFields_cons_decomp (lvl + 1) k v fs
          rw [show stringifyAt lvl (.obj (.cons k v fs)) ++ rest =
            '\x7b' :: '\n' :: (stringifyFields (lvl + 1) (.cons k v fs) ++
              '\n' :: (indentChars lvl ++ '\x7d' :: rest)) by simp [stringifyAt]]
          simp only [parseValue]
          rw [skipWs_not_ws (by decide)]
          simp only []
          rw [if_neg (by decide), if_neg (by decide), if_neg (by decide), if_neg (by decide),
            if_neg (by decide)]
          rw [show skipWs ('\n' :: (stringifyFields (lvl + 1) (.cons k v fs) ++
              '\n' :: (indentChars lvl ++ '\x7d' :: rest))) =
              '"' :: (T ++ '\n' :: (indentChars lvl ++ '\x7d' :: rest)) by
            rw [skipWs_nl, hT, List.append_assoc, skipWs_indent, List.cons_append]
            exact skipWs_not_ws (by decide) _]
          simp only []
          rw [if_pos trivial]
          rw [if_neg (by decide)]
          rw [show parseObjFields fuel
              ('"' :: (T ++ '\n' :: (indentChars lvl ++ '\x7d' :: rest))) .nil =
              parseObjFields fuel (stringifyFields (lvl + 1) (.cons k v fs) ++
                '\n' :: (indentChars lvl ++ '\x7d' :: rest)) .nil by
            apply parseObjFields_congr
            rw [skipWs_not_ws (by decide), hT, List.append_assoc, skipWs_indent,
              List.cons_append, skipWs_not_ws (by decide)]]
          rw [IH3 (.cons k v fs) lvl .nil rest (by intro hx; cases hx) hwle]
          rfl
    · intro elems lvl acc rest hne hw
      cases elems with
      | nil => exact absurd rfl hne
      | cons e es =>
        have hwe : jweight e ≤ fuel := by
          simp only [jweightList] at hw
          omega
        cases es with
        | nil =>
          rw [show stringifyItems (lvl + 1) (.cons e .nil) ++
              '\n' :: (indentChars lvl ++ ']' :: rest) =
              indentChars (lvl + 1) ++ (stringifyAt (lvl + 1) e ++
                ('\n' :: (indentChars lvl ++ ']' :: rest))) by simp [stringifyItems]]
          simp only [parseArrayItems]
          rw [parseValue_congr fuel
            (indentChars (lvl + 1) ++ (stringifyAt (lvl + 1) e ++
              ('\n' :: (indentChars lvl ++ ']' :: rest))))
            (stringifyAt (lvl + 1) e ++ ('\n' :: (indentChars lvl ++ ']' :: rest)))
            (by rw [skipWs_indent])]
          rw [IH1 e (lvl + 1) ('\n' :: (indentChars lvl ++ ']' :: rest)) hwe
            (head_not_digit_cons (by decide) _)]
          simp only []
          rw [show skipWs ('\n' :: (indentChars lvl ++ ']' :: rest)) = ']' :: rest by
            rw [skipWs_nl, skipWs_indent]
            exact skipWs_not_ws (by decide) _]
          simp only []
          simp only [Char.reduceEq, reduceIte]
        | cons e2 es2 =>
          have hwtl : jweightList (JsonList.cons e2 es2) ≤ fuel := by
            simp only [jweightList] at hw ⊢
            omega
          rw [show stringifyItems (lvl + 1) (.cons e (.cons e2 es2)) ++
              '\n' :: (indentChars lvl ++ ']' :: rest) =
              indentChars (lvl + 1) ++ (stringifyAt (lvl + 1) e ++
                (',' :: '\n' :: (stringifyItems (lvl + 1) (.cons e2 es2) ++
                  '\n' :: (indentChars lvl ++ ']' :: rest)))) by simp [stringifyItems]]
          simp only [parseArrayItems]
          rw [parseValue_congr fuel
            (indentChars (lvl + 1) ++ (stringifyAt (lvl + 1) e ++
              (',' :: '\n' :: (stringifyItems (lvl + 1) (.cons e2 es2) ++
                '\n' :: (indentChars lvl ++ ']' :: rest)))))
            (stringifyAt (lvl + 1) e ++ (',' :: '\n' :: (stringifyItems (lvl + 1) (.cons e2 es2) ++
              '\n' :: (indentChars lvl ++ ']' :: rest))))
            (by rw [skipWs_indent])]
          rw [IH1 e (lvl + 1) _ hwe (head_not_digit_cons (by decide) _)]
          simp only []
          rw [skipWs_not_ws (by decide)]
          simp only []
          simp only [Char.reduceEq, reduceIte]
          rw [parseArrayItems_congr fuel
            ('\n' :: (stringifyItems (lvl + 1) (.cons e2 es2) ++
              '\n' :: (indentChars lvl ++ ']' :: rest)))
            (stringifyItems (lvl + 1) (.cons e2 es2) ++
              '\n' :: (indentChars lvl ++ ']' :: rest))
            (acc.append (.cons e .nil)) (by rw [skipWs_nl])]
          rw [IH2 (.cons e2 es2) lvl (acc.append (.cons e .nil)) rest
            (by intro hx; cases hx) hwtl]
          rw [jsonList_append_assoc]
          rfl
    · intro fields lvl acc rest hne hw
      cases fields with
      | nil => exact absurd rfl hne
      | cons k v fs =>
        have hwv : jweight v ≤ fuel := by
          simp only [jweightFields] at hw
          omega
        cases fs with
        | nil =>
          rw [show stringifyFields (lvl + 1) (.cons k v .nil) ++
              '\n' :: (indentChars lvl ++ '\x7d' :: rest) =
              indentChars (lvl + 1) ++ ('"' :: ((k.data.map escapeChar).flatten ++
                '"' :: (':' :: ' ' :: (stringifyAt (lvl + 1) v ++
                  ('\n' :: (indentChars lvl ++ '\x7d' :: rest)))))) by
              simp [stringifyFields, quoteChars]]
          simp only [parseObjFields]
          rw [show skipWs (indentChars (lvl + 1) ++ ('"' :: ((k.data.map escapeChar).flatten ++
                '"' :: (':' :: ' ' :: (stringifyAt (lvl + 1) v ++
                  ('\n' :: (indentChars lvl ++ '\x7d' :: rest))))))) =
              '"' :: ((k.data.map escapeChar).flatten ++
                '"' :: (':' :: ' ' :: (stringifyAt (lvl + 1) v ++
                  ('\n' :: (indentChars lvl ++ '\x7d' :: rest))))) by
            rw [skipWs_indent]
            exact skipWs_not_ws (by decide) _]
          simp only []
          simp only [Char.reduceEq, reduceIte]
          rw [parseStringBody_quote]
          simp only []
          rw [show skipWs (':' :: ' ' :: (stringifyAt (lvl + 1) v ++
              ('\n' :: (indentChars lvl ++ '\x7d' :: rest)))) =
              ':' :: ' ' :: (stringifyAt (lvl + 1) v ++
                ('\n' :: (indentChars lvl ++ '\x7d' :: rest))) from
            skipWs_not_ws (by decide) _]
          simp only []
          simp only [Char.reduceEq, reduceIte]
          rw [parseValue_congr fuel
            (' ' :: (stringifyAt (lvl + 1) v ++
              ('\n' :: (indentChars lvl ++ '\x7d' :: rest))))
            (stringifyAt (lvl + 1) v ++ ('\n' :: (indentChars lvl ++ '\x7d' :: rest)))
            (by simp [skipWs, isWsChar])]
          rw [IH1 v (lvl + 1) _ hwv (head_not_digit_cons (by decide) _)]
          simp only []
          rw [show skipWs ('\n' :: (indentChars lvl ++ '\x7d' :: rest)) = '\x7d' :: rest by
            rw [skipWs_nl, skipWs_indent]
            exact skipWs_not_ws (by decide) _]
          simp only []
          simp only [Char.reduceEq, reduceIte]
        | cons k2 v2 fs2 =>
          have hwtl : jweightFields (JsonFields.cons k2 v2 fs2) ≤ fuel := by
            simp only [jweightFields] at hw ⊢
            omega
          rw [show stringifyFields (lvl + 1) (.cons k v (.cons k2 v2 fs2)) ++
              '\n' :: (indentChars lvl ++ '\x7d' :: rest) =
              indentChars (lvl + 1) ++ ('"' :: ((k.data.map escapeChar).flatten ++
                '"' :: (':' :: ' ' :: (stringifyAt (lvl + 1) v ++
                  (',' :: '\n' :: (stringifyFields (lvl + 1) (.cons k2 v2 fs2) ++
                    '\n' :: (indentChars lvl ++ '\x7d' :: rest))))))) by
              simp [stringifyFields, quoteChars]]
          simp only [parseObjFields]
          rw [show skipWs (indentChars (lvl + 1) ++ ('"' :: ((k.data.map escapeChar).flatten ++
                '"' :: (':' :: ' ' :: (stringifyAt (lvl + 1) v ++
                  (',' :: '\n' :: (stringifyFields (lvl + 1) (.cons k2 v2 fs2) ++
                    '\n' :: (indentChars lvl ++ '\x7d' :: rest)))))))) =
              '"' :: ((k.data.map escapeChar).flatten ++
                '"' :: (':' :: ' ' :: (stringifyAt (lvl + 1) v ++
                  (',' :: '\n' :: (stringifyFields (lvl + 1) (.cons k2 v2 fs2) ++
                    '\n' :: (indentChars lvl ++ '\x7d' :: rest)))))) by
            rw [skipWs_indent]
            exact skipWs_not_ws (by decide) _]
          simp only []
          simp only [Char.reduceEq, reduceIte]
          rw [parseStringBody_quote]
          simp only []
          rw [show skipWs (':' :: ' ' :: (stringifyAt (lvl + 1) v ++
              (',' :: '\n' :: (stringifyFields (lvl + 1) (.cons k2 v2 fs2) ++
                '\n' :: (indentChars lvl ++ '\x7d' :: rest))))) =
              ':' :: ' ' :: (stringifyAt (lvl + 1) v ++
                (',' :: '\n' :: (stringifyFields (lvl + 1) (.cons k2 v2 fs2) ++
                  '\n' :: (indentChars lvl ++ '\x7d' :: rest)))) from
            skipWs_not_ws (by decide) _]
          simp only []
          simp only [Char.reduceEq, reduceIte]
          rw [parseValue_congr fuel
            (' ' :: (stringifyAt (lvl + 1) v ++
              (',' :: '\n' :: (stringifyFields (lvl + 1) (.cons k2 v2 fs2) ++
                '\n' :: (indentChars lvl ++ '\x7d' :: rest)))))
            (stringifyAt (lvl + 1) v ++
              (',' :: '\n' :: (stringifyFields (lvl + 1) (.cons k2 v2 fs2) ++
                '\n' :: (indentChars lvl ++ '\x7d' :: rest))))
            (by simp [skipWs, isWsChar])]
          rw [IH1 v (lvl + 1) _ hwv (head_not_digit_cons (by decide) _)]
          simp only []
          rw [skipWs_not_ws (by decide)]
          simp only []
          simp only [Char.reduceEq, reduceIte]
          rw [parseObjFields_congr fuel
            ('\n' :: (stringifyFields (lvl + 1) (.cons k2 v2 fs2) ++
              '\n' :: (indentChars lvl ++ '\x7d' :: rest)))
            (stringifyFields (lvl + 1) (.cons k2 v2 fs2) ++
              '\n' :: (indentChars lvl ++ '\x7d' :: rest))
            (acc.append (.cons (String.mk k.data) v .nil)) (by rw [skipWs_nl])]
          rw [IH3 (.cons k2 v2 fs2) lvl _ rest (by intro hx; cases hx) hwtl]
          rw [string_eta, jsonFields_append_assoc]
          rfl

mutual
theorem jweight_le_stringify : ∀ (v : Json) (lvl : Nat),
    jweight v ≤ (stringifyAt lvl v).length
  | .null, lvl => by simp [jweight, stringifyAt]
  | .bool true, lvl => by simp [jweight, stringifyAt]
  | .bool false, lvl => by simp [jweight, stringifyAt]
  | .num i, lvl => by
    obtain ⟨c, cs, heq, _⟩ := intToChars_head i
    simp [jweight, stringifyAt, heq]
  | .str s, lvl => by simp [jweight, stringifyAt, quoteChars]
  | .arr .nil, lvl => by simp [jweight, jweightList, stringifyAt]
  | .arr (.cons e es), lvl => by
    have h := jweightList_le_stringify (.cons e es) (lvl + 1)
    simp only [jweight, stringifyAt, List.length_cons, List.length_append]
    omega
  | .obj .nil, lvl => by simp [jweight, jweightFields, stringifyAt]
  | .obj (.cons k v fs), lvl => by
    have h := jweightFields_le_stringify (.cons k v fs) (lvl + 1)
    simp only [jweight, stringifyAt, List.length_cons, List.length_append]
    omega

theorem jweightList_le_stringify : ∀ (l : JsonList) (lvl : Nat),
    jweightList l ≤ (stringifyItems lvl l).length + 1
  | .nil, lvl => by simp [jweightList, stringifyItems]
  | .cons e .nil, lvl => by
    have h := jweight_le_stringify e lvl
    simp only [jweightList, stringifyItems, List.length_append]
    omega
  | .cons e (.cons e2 es), lvl => by
    have h1 := jweight_le_stringify e lvl
    have h2 := jweightList_le_stringify (.cons e2 es) lvl
    simp only [jweightList] at h2
    simp only [jweightList, stringifyItems, List.length_append, List.length_cons]
    omega

theorem jweightFields_le_stringify : ∀ (l : JsonFields) (lvl : Nat),
    jweightFields l ≤ (stringifyFields lvl l).length + 1
  | .nil, lvl => by simp [jweightFields, stringifyFields]
  | .cons k v .nil, lvl => by
    have h := jweight_le_stringify v lvl
    simp only [jweightFields, stringifyFields, List.length_append, List.length_cons]
    omega
  | .cons k v (.cons k2 v2 fs), lvl => by
    have h1 := jweight_le_stringify v lvl
    have h2 := jweightFields_le_stringify (.cons k2 v2 fs) lvl
    simp only [jweightFields] at h2
    simp only [jweightFields, stringifyFields, List.length_append, List.length_cons]
    omega
end

/-- C10: archiving round-trips — for every JSON value, the archived file
content (`JSON.stringify(data, null, 2)`, src/jsonUtils.ts line 88)
parsed back as JSON equals the original, unlimited input value. -/
theorem jsonParse_savedFileContent_roundtrip (data : Json) :
    jsonParse (savedFileContent data) = some data := by
  have hle : jweight data ≤ (stringifyAt 0 data).length + 1 := by
    have := jweight_le_stringify data 0
    omega
  have h1 : parseValue ((stringifyAt 0 data).length + 1) (stringifyAt 0 data)
      = some (data, []) := by
    have h := (parse_stringify_trio ((stringifyAt 0 data).length + 1)).1 data 0 []
      hle (by intro d hd; simp at hd)
    simpa using h
  unfold jsonParse
  rw [show (savedFileContent data).data = stringifyAt 0 data from rfl]
  rw [h1]
  rfl
